import Mathlib

/-!
Reduced ordered binary decision diagrams (`robdd.go`, package `ctl`)

A shallow embedding of the Go package and a verification of its contract.

Embedding:

* A Go value of type `*BDD` is a term of the inductive type `ctl.BDD`:
  `BDD.nil` is the nil pointer and `BDD.mk Value ID True False` is a reference
  to a struct with these four fields.  Diagrams are finite and acyclic, so a
  reference is represented by the structure it points to.
* Pointer comparison (`p == q`) is comparison of the represented structures.
  For the comparisons made by the code this is exact: in `Equals` the
  structural path returns `true` on identical structures anyway, and
  `Contains`/`Intersects` compare the result of `Apply` with the `True`/`False`
  singletons, where `Apply` returns either one of the singletons or a struct
  whose `ID` is not zero.
* A nil-pointer dereference (a Go panic) is the result `none`; every method is
  therefore a function into `Option`.
* `uint` values are natural numbers; the only operation that can overflow is
  the left shift in `varID`, which is reduced modulo `2 ^ uintBits`.
* `Compress` depends on the identity of pointers (its map compares the branch
  fields of its keys as pointers) and on structs being overwritten in place.
  It is embedded on an explicit memory of structs with address fields
  (namespace `ctl.Heap`), together with the `Equals` and `Reduce` it is used
  with.
-/

namespace ctl

/-- Width of the Go type `uint` on a 64-bit platform. -/
def uintBits : Nat := 64

/-- A value of type `*BDD`: the nil pointer, or a reference to a struct
`BDD{Value, ID, True, False}`. -/
inductive BDD where
  | nil : BDD
  | mk (Value : Bool) (ID : Nat) (True False : BDD) : BDD
  deriving DecidableEq, Repr

/-- `var True = &BDD{true, 0, nil, nil}` -/
def True : BDD := BDD.mk true 0 BDD.nil BDD.nil

/-- `var False = &BDD{false, 0, nil, nil}` -/
def False : BDD := BDD.mk false 0 BDD.nil BDD.nil

namespace BDD

/-- `func (p *BDD) Node() bool`: `p.ID != 0`; panics on nil. -/
def Node : BDD → Option Bool
  | nil => none
  | mk _ id _ _ => some (id != 0)

/-- `func (p *BDD) Equals(q *BDD) bool`. -/
def Equals (p q : BDD) : Option Bool :=
  -- Pointing to the same instance?
  if p = q then some true
  else
    match p, q with
    | nil, _ => none
    | mk _ _ _ _, nil => none
    | mk pv pid pt pf, mk qv qid qt qf =>
      -- Same root ID? (or both a leaf)
      if pid ≠ qid then some false
      -- Same branches or leaf values?
      else if pid ≠ 0 then
        match Equals pt qt with
        | none => none
        | some false => some false
        | some true => Equals pf qf
      else some (pv == qv)

end BDD

/-- Modelled from the spec: `registerNodeRef` is not under src/.  The Node
Store "looks up `(id, trueBranch, falseBranch)`; returns the existing node if
found, else creates, registers, and returns a new one": in either case the
result is a reference to a struct with the given descriptor.  The arguments are
the fields of the struct literal passed by value. -/
def registerNodeRef (Value : Bool) (ID : Nat) (True False : BDD) : BDD :=
  BDD.mk Value ID True False

/-- `func Node(id uint, t *BDD, f *BDD) *BDD`. -/
def Node (id : Nat) (t f : BDD) : Option BDD :=
  match t.Equals f with
  | none => none
  | some true => some t
  | some false => some (registerNodeRef false id t f)

/-- Modelled from the spec: `varNextID` is not under src/.  The convention
documented on `Next`: "the same variable in the next state is encoded by
setting the first bit to 1". -/
def varNextID (id : Nat) : Nat := id ||| 1

/-- Modelled from the spec: `varID` is not under src/.  The convention
documented on `Next`: "all variable ID's are left-shifted 1 place"; the shift
is a `uint` shift and drops the bits above the word. -/
def varID (id : Nat) : Nat := (id <<< 1) % 2 ^ uintBits

namespace BDD

/-- `func (p *BDD) Next() *BDD`. -/
def Next : BDD → Option BDD
  | nil => none
  | mk v id t f =>
    if id ≠ 0 then
      match Next t with
      | none => none
      | some t1 =>
        match Next f with
        | none => none
        | some f1 => ctl.Node (varNextID id) t1 f1
    else some (mk v id t f)

/-- `func (p *BDD) Prev() *BDD`. -/
def Prev : BDD → Option BDD
  | nil => none
  | mk v id t f =>
    if id ≠ 0 then
      match Prev t with
      | none => none
      | some t1 =>
        match Prev f with
        | none => none
        | some f1 => ctl.Node (varID (id >>> 1)) t1 f1
    else some (mk v id t f)

/-- `func (p *BDD) Set(id uint, value bool) *BDD`. -/
def Set : BDD → Nat → Bool → Option BDD
  | nil, _, _ => none
  | mk v pid t f, id, value =>
    if pid = id then
      if value then some t else some f
    else if pid ≠ 0 then
      match Set t id value with
      | none => none
      | some t1 =>
        match Set f id value with
        | none => none
        | some f1 => ctl.Node pid t1 f1
    else some (mk v pid t f)

/-- Number of structs reachable from a reference (the recursion measure of
`Apply`). -/
def size : BDD → Nat
  | nil => 0
  | mk _ _ t f => size t + size f + 1

mutual

/-- `func (p *BDD) Apply(op uint, q *BDD) *BDD`. -/
def Apply (op : Nat) (p q : BDD) : Option BDD :=
  match p, q with
  | nil, _ => none
  | mk _ _ _ _, nil => none
  | mk pv pid pt pf, mk qv qid qt qf =>
    -- Push operator downward.
    if pid ≠ 0 ∨ qid ≠ 0 then
      if pid = qid then
        match applyCached op pt qt with
        | none => none
        | some t =>
          match applyCached op pf qf with
          | none => none
          | some f => ctl.Node pid t f
      else if (pid ≠ 0 ∧ pid < qid) ∨ ¬ (qid ≠ 0) then
        match applyCached op pt (mk qv qid qt qf) with
        | none => none
        | some t =>
          match applyCached op pf (mk qv qid qt qf) with
          | none => none
          | some f => ctl.Node pid t f
      else
        match applyCached op (mk pv pid pt pf) qt with
        | none => none
        | some t =>
          match applyCached op (mk pv pid pt pf) qf with
          | none => none
          | some f => ctl.Node qid t f
    else
      -- Or evaluate operator.
      let i := (if pv then 2 else 0) + (if qv then 1 else 0)
      if (op >>> (3 - i)) &&& 1 = 0 then some ctl.False else some ctl.True
termination_by 2 * (size p + size q)
decreasing_by all_goals (simp only [size]; omega)

/-- Modelled from the spec: `applyCached` is not under src/.  "Every recursive
call must go through an operation cache keyed by `(op, p-identity,
q-identity)`": the call returns the memoised result of `Apply` on the same
operands, computing it on a miss. -/
def applyCached (op : Nat) (p q : BDD) : Option BDD := Apply op p q
termination_by 2 * (size p + size q) + 1
decreasing_by all_goals omega

end

/-- `func (p *BDD) Imply(q *BDD) *BDD`. -/
def Imply (p q : BDD) : Option BDD := p.Apply 0b1101 q

/-- `func (p *BDD) Neg() *BDD`. -/
def Neg (p : BDD) : Option BDD := p.Imply ctl.False

/-- `func (p *BDD) And(q *BDD) *BDD`. -/
def And (p q : BDD) : Option BDD := p.Apply 0b0001 q

/-- `func (p *BDD) Or(q *BDD) *BDD`. -/
def Or (p q : BDD) : Option BDD := p.Apply 0b0111 q

/-- `func (p *BDD) Eq(q *BDD) *BDD`. -/
def Eq (p q : BDD) : Option BDD := p.Apply 0b1001 q

/-- `func (p *BDD) Xor(q *BDD) *BDD`. -/
def Xor (p q : BDD) : Option BDD := p.Apply 0b0110 q

/-- `func (p *BDD) Contains(q *BDD) bool`: `q.Imply(p) == True`. -/
def Contains (p q : BDD) : Option Bool :=
  match q.Imply p with
  | none => none
  | some r => some (decide (r = ctl.True))

/-- `func (p *BDD) Intersects(q *BDD) bool`: `q.And(p) != False`. -/
def Intersects (p q : BDD) : Option Bool :=
  match q.And p with
  | none => none
  | some r => some (decide (r ≠ ctl.False))

/-- `func (p *BDD) Exists(id uint) *BDD`:
`p.Set(id, true).Or(p.Set(id, false))`. -/
def Exists (p : BDD) (id : Nat) : Option BDD :=
  match p.Set id true with
  | none => none
  | some t =>
    match p.Set id false with
    | none => none
    | some f => t.Or f

end BDD

/-! ## Notions used by the contract -/

namespace BDD

/-- Evaluation of a diagram at an assignment: a leaf gives its `Value`, a node
its `True` branch if the assignment holds at `ID`, else its `False` branch.
The nil pointer denotes no function; it is given the value `false`. -/
def eval : BDD → (Nat → Bool) → Bool
  | nil, _ => false
  | mk v id t f, a => if id ≠ 0 then (if a id then eval t a else eval f a) else v

/-- A well-formed diagram: a non-nil reference, and both branches of every
node (a struct with `ID != 0`) are well-formed again.  The branches of a leaf
are never read and are not constrained. -/
def wellFormed : BDD → Bool
  | nil => false
  | mk _ id t f => id == 0 || (wellFormed t && wellFormed f)

/-- A well-formed diagram in which every node below has an id above `lo` and
the ids strictly increase along every root-to-leaf path. -/
def orderedFrom (lo : Nat) : BDD → Bool
  | nil => false
  | mk _ id t f => id == 0 || (decide (lo < id) && orderedFrom id t && orderedFrom id f)

/-- The ids strictly increase along every root-to-leaf path. -/
def ordered (p : BDD) : Bool := orderedFrom 0 p

/-- No node of the diagram has a `True` branch that `Equals` its `False`
branch. -/
def reduced : BDD → Bool
  | nil => true
  | mk _ id t f => id == 0 || (!(t.Equals f == some true) && reduced t && reduced f)

/-- The diagram contains a node labelled `x`. -/
def hasVar (x : Nat) : BDD → Bool
  | nil => false
  | mk _ id t f => id != 0 && (id == x || hasVar x t || hasVar x f)

/-- Every node id of the diagram is a `uint` value. -/
def inRange : BDD → Bool
  | nil => true
  | mk _ id t f => id == 0 || (decide (id < 2 ^ uintBits) && inRange t && inRange f)

/-- Every node id of the diagram is a current-state id (lowest bit 0). -/
def current : BDD → Bool
  | nil => true
  | mk _ id t f => id == 0 || (id % 2 == 0 && current t && current f)

/-- The structure that `Equals` compares: the `Value` of a leaf, and the `ID`
and branches of a node. -/
def shape : BDD → BDD
  | nil => nil
  | mk v id t f => if id ≠ 0 then mk false id (shape t) (shape f) else mk v 0 nil nil

/-- The values `Apply` can return: one of the two singletons or a node. -/
def isResult (r : BDD) : Prop :=
  r = ctl.True ∨ r = ctl.False ∨ ∃ v id t f, r = mk v id t f ∧ id ≠ 0

end BDD

/-- Entry of the truth table `op` for the pair `(x, y)`: bit
`3 - (2*x + y)` of `op`, the table being read in the order 00, 01, 10, 11. -/
def opBit (op : Nat) (x y : Bool) : Bool :=
  (op / 2 ^ (3 - (2 * x.toNat + y.toNat))) % 2 == 1

/-- The assignment `a` modified to map `x` to `v`. -/
def update (a : Nat → Bool) (x : Nat) (v : Bool) : Nat → Bool :=
  fun y => if y = x then v else a y

/-- Diagrams built from the `True`/`False` leaves exclusively through `Node`
with non-zero ids. -/
inductive Built : BDD → Prop where
  | leafTrue : Built ctl.True
  | leafFalse : Built ctl.False
  | node (id : Nat) (t f r : BDD) : id ≠ 0 → Built t → Built f →
      Node id t f = some r → Built r

/-- What `Apply op p q` guarantees about its result `r`. -/
def BDD.ApplyPost (op : Nat) (p q r : BDD) : Prop :=
  r.wellFormed = true ∧ r.reduced = true ∧ r.isResult ∧
    (∀ a, r.eval a = opBit op (p.eval a) (q.eval a)) ∧
    (∀ lo, p.orderedFrom lo = true → q.orderedFrom lo = true → r.orderedFrom lo = true)

/-! ## Reduce

`Reduce` assigns to `p.True` and `p.False` before it returns.  For the value it
returns the assignments are modelled by returning the updated struct; the
version on an explicit memory follows further down. -/

namespace BDD

/-- `func (p *BDD) Reduce() *BDD`. -/
def Reduce : BDD → Option BDD
  | nil => none
  | mk v id t f =>
    if id ≠ 0 then
      match Reduce t with
      | none => none
      | some t1 =>
        match Reduce f with
        | none => none
        | some f1 =>
          match t1.Equals f1 with
          | none => none
          | some true => some t1
          | some false => some (mk v id t1 f1)
    else some (mk v id t f)

/-- The ids strictly increase along every root-to-leaf path and the ids below
a node lie above the next-state id of that node, so that no path holds both
the current-state and the next-state id of one variable. -/
def separatedFrom (lo : Nat) : BDD → Bool
  | nil => false
  | mk _ id t f =>
    id == 0 || (decide (lo < id) && separatedFrom (varNextID id) t &&
      separatedFrom (varNextID id) f)

end BDD

/-! ## Compress, on an explicit memory

`Compress` keeps a map `lookup map[BDD]*BDD` whose keys are structs, compared
field by field, the two branch fields as pointers, and whose values are
pointers to structs that later calls overwrite in place.  Here the memory is
explicit: a struct is a `Cell` whose branch fields are addresses, the memory is
the list of all structs, a value of type `*BDD` is `none` (nil) or `some` index
into that list, and `p.True = ...` writes to the cell at the address `p`.  The
recursion follows the addresses in the memory, so the methods take a bound on
the depth of the recursion; `none` is a nil dereference or the bound being
reached, and a result obtained within a bound is the result for every larger
bound.  The map is a map that has been made (Go panics on an assignment to a
nil map); it is the list of its assignments, the latest first. -/

/-- A struct `BDD{Value, ID, True, False}` in memory; a branch field holds nil
or an address. -/
structure Cell where
  Value : Bool
  ID : Nat
  True : Option Nat
  False : Option Nat
  deriving DecidableEq, Repr

namespace Heap

/-- The struct at an address. -/
def readCell : List Cell → Nat → Option Cell
  | [], _ => none
  | c :: _, 0 => some c
  | _ :: h, i + 1 => readCell h i

/-- The memory after the struct at an address is overwritten. -/
def writeCell : List Cell → Nat → Cell → List Cell
  | [], _, _ => []
  | _ :: h, 0, c => c :: h
  | x :: h, i + 1, c => x :: writeCell h i c

/-- The assignment `p.True = t` for the struct at address `i`. -/
def setTrue (h : List Cell) (i : Nat) (t : Option Nat) : List Cell :=
  match readCell h i with
  | none => h
  | some c => writeCell h i { c with True := t }

/-- The assignment `p.False = f` for the struct at address `i`. -/
def setFalse (h : List Cell) (i : Nat) (f : Option Nat) : List Cell :=
  match readCell h i with
  | none => h
  | some c => writeCell h i { c with False := f }

/-- `func (p *BDD) Equals(q *BDD) bool` on the memory `h`. -/
def Equals : Nat → List Cell → Option Nat → Option Nat → Option Bool
  | 0, _, _, _ => none
  | fuel + 1, h, p, q =>
    -- Pointing to the same instance?
    if p = q then some true
    else
      match p, q with
      | none, _ => none
      | some _, none => none
      | some i, some j =>
        match readCell h i, readCell h j with
        | some c, some d =>
          if c.ID ≠ d.ID then some false
          else if c.ID ≠ 0 then
            match Equals fuel h c.True d.True with
            | none => none
            | some false => some false
            | some true => Equals fuel h c.False d.False
          else some (c.Value == d.Value)
        | _, _ => none

/-- `func (p *BDD) Reduce() *BDD` on the memory `h`, returning the result and
the memory. -/
def Reduce : Nat → Option Nat → List Cell → Option (Option Nat × List Cell)
  | 0, _, _ => none
  | _ + 1, none, _ => none
  | fuel + 1, some i, h =>
    match readCell h i with
    | none => none
    | some c =>
      if c.ID ≠ 0 then
        match Reduce fuel c.True h with
        | none => none
        | some (t1, h1) =>
          match readCell (setTrue h1 i t1) i with
          | none => none
          | some c1 =>
            match Reduce fuel c1.False (setTrue h1 i t1) with
            | none => none
            | some (f1, h2) =>
              match readCell (setFalse h2 i f1) i with
              | none => none
              | some c2 =>
                match Equals fuel (setFalse h2 i f1) c2.True c2.False with
                | none => none
                | some true => some (c2.True, setFalse h2 i f1)
                | some false => some (some i, setFalse h2 i f1)
      else some (some i, h)

/-- The pointer `p` is a well-formed diagram of depth at most `n` in the
memory `h`: it is not nil, and the branches of every node are well-formed
diagrams of smaller depth. -/
def wellFormed : Nat → List Cell → Option Nat → Bool
  | 0, _, _ => false
  | _ + 1, _, none => false
  | n + 1, h, some i =>
    match readCell h i with
    | none => false
    | some c => c.ID == 0 || (wellFormed n h c.True && wellFormed n h c.False)

end Heap

/-! ## Structural equality -/

namespace BDD

theorem Equals_self (p : BDD) : p.Equals p = some true := by
  unfold Equals; simp

theorem Equals_eq_shape (p : BDD) : ∀ q : BDD, wellFormed p = true → wellFormed q = true →
    p.Equals q = some (decide (shape p = shape q)) := by
  induction p with
  | nil => intro q hp; simp [wellFormed] at hp
  | mk pv pid pt pf iht ihf =>
    intro q hp hq
    cases q with
    | nil => simp [wellFormed] at hq
    | mk qv qid qt qf =>
      by_cases he : mk pv pid pt pf = mk qv qid qt qf
      · rw [he, Equals_self]; simp
      · unfold Equals
        rw [if_neg he]
        by_cases hid : pid = qid
        · subst hid
          by_cases h0 : pid = 0
          · subst h0
            cases pv <;> cases qv <;> simp [shape]
          · have hp2 : wellFormed pt = true ∧ wellFormed pf = true := by
              simpa [wellFormed, h0] using hp
            have hq2 : wellFormed qt = true ∧ wellFormed qf = true := by
              simpa [wellFormed, h0] using hq
            simp only [ne_eq, not_true_eq_false, if_false, h0, not_false_eq_true, if_true]
            rw [iht qt hp2.1 hq2.1, ihf qf hp2.2 hq2.2]
            by_cases h1 : shape pt = shape qt
            · by_cases h2 : shape pf = shape qf <;> simp [shape, h0, h1, h2]
            · simp [shape, h0, h1]
        · simp only [ne_eq, hid, not_false_eq_true, if_true]
          by_cases h0 : pid = 0
          · subst h0
            have : ¬ qid = 0 := fun h => hid h.symm
            simp [shape, this, hid]
          · by_cases h1 : qid = 0
            · subst h1; simp [shape, h0]
            · simp [shape, h0, h1, hid]

theorem eval_shape (p : BDD) (a : Nat → Bool) : eval (shape p) a = eval p a := by
  induction p with
  | nil => rfl
  | mk v id t f iht ihf =>
    by_cases h : id = 0
    · simp [shape, eval, h]
    · simp [shape, eval, h, iht, ihf]

theorem eval_eq_of_shape {p q : BDD} (h : shape p = shape q) (a : Nat → Bool) :
    eval p a = eval q a := by
  rw [← eval_shape p, ← eval_shape q, h]

theorem wellFormed_node {v : Bool} {id : Nat} {t f : BDD} (h0 : id ≠ 0) :
    wellFormed (mk v id t f) = true ↔ wellFormed t = true ∧ wellFormed f = true := by
  simp [wellFormed, h0]

theorem orderedFrom_node {v : Bool} {lo id : Nat} {t f : BDD} (h0 : id ≠ 0) :
    orderedFrom lo (mk v id t f) = true ↔
      lo < id ∧ orderedFrom id t = true ∧ orderedFrom id f = true := by
  simp [orderedFrom, h0, and_assoc]

theorem orderedFrom_mono {p : BDD} {lo hi : Nat} (hle : lo ≤ hi)
    (h : orderedFrom hi p = true) : orderedFrom lo p = true := by
  cases p with
  | nil => simp [orderedFrom] at h
  | mk v id t f =>
    by_cases h0 : id = 0
    · simp [orderedFrom, h0]
    · rw [orderedFrom_node h0] at h ⊢
      exact ⟨lt_of_le_of_lt hle h.1, h.2⟩

theorem wellFormed_of_orderedFrom {p : BDD} : ∀ {lo : Nat},
    orderedFrom lo p = true → wellFormed p = true := by
  induction p with
  | nil => intro lo h; simp [orderedFrom] at h
  | mk v id t f iht ihf =>
    intro lo h
    by_cases h0 : id = 0
    · simp [wellFormed, h0]
    · rw [orderedFrom_node h0] at h
      rw [wellFormed_node h0]
      exact ⟨iht h.2.1, ihf h.2.2⟩

/-- Raising the bound of an ordered diagram below its root id. -/
theorem orderedFrom_raise {v : Bool} {lo hi id : Nat} {t f : BDD}
    (h : orderedFrom lo (mk v id t f) = true) (hid : id = 0 ∨ hi < id) :
    orderedFrom hi (mk v id t f) = true := by
  by_cases h0 : id = 0
  · simp [orderedFrom, h0]
  · rw [orderedFrom_node h0] at h ⊢
    rcases hid with hid | hid
    · exact absurd hid h0
    · exact ⟨hid, h.2⟩

theorem reduced_node {v : Bool} {id : Nat} {t f : BDD} (h0 : id ≠ 0)
    (ht : wellFormed t = true) (hf : wellFormed f = true) :
    reduced (mk v id t f) = true ↔
      shape t ≠ shape f ∧ reduced t = true ∧ reduced f = true := by
  simp [reduced, h0, Equals_eq_shape t f ht hf, and_assoc]

/-- An ordered diagram does not depend on the variables up to its bound. -/
theorem eval_congr {p : BDD} : ∀ {lo : Nat} {a b : Nat → Bool},
    orderedFrom lo p = true → (∀ x, lo < x → a x = b x) → eval p a = eval p b := by
  induction p with
  | nil => intro lo a b h; simp [orderedFrom] at h
  | mk v id t f iht ihf =>
    intro lo a b h hab
    by_cases h0 : id = 0
    · simp [eval, h0]
    · rw [orderedFrom_node h0] at h
      have h1 : ∀ x, id < x → a x = b x := fun x hx => hab x (lt_trans h.1 hx)
      simp only [eval, ne_eq, h0, not_false_eq_true, if_true, hab id h.1,
        iht h.2.1 h1, ihf h.2.2 h1]

end BDD

/-! ## The constructor -/

theorem Node_eq (id : Nat) {t f : BDD} (ht : t.wellFormed = true) (hf : f.wellFormed = true) :
    Node id t f = some (if t.shape = f.shape then t else BDD.mk false id t f) := by
  unfold Node
  rw [BDD.Equals_eq_shape t f ht hf]
  by_cases h : t.shape = f.shape <;> simp [h, registerNodeRef]

/-- What `Node` returns on well-formed reduced branches. -/
theorem Node_spec {id : Nat} {t f : BDD} (h0 : id ≠ 0)
    (ht : t.wellFormed = true) (hf : f.wellFormed = true)
    (rt : t.reduced = true) (rf : f.reduced = true)
    (st : t.isResult) :
    ∃ r, Node id t f = some r ∧ r.wellFormed = true ∧ r.reduced = true ∧ r.isResult ∧
      (∀ a, r.eval a = if a id then t.eval a else f.eval a) ∧
      (∀ lo, lo < id → t.orderedFrom id = true → f.orderedFrom id = true →
        r.orderedFrom lo = true) := by
  rw [Node_eq id ht hf]
  by_cases h : t.shape = f.shape
  · refine ⟨t, by simp [h], ht, rt, st, ?_, ?_⟩
    · intro a
      rw [← BDD.eval_eq_of_shape h a]; simp
    · intro lo hlo ot _
      exact BDD.orderedFrom_mono (le_of_lt hlo) ot
  · refine ⟨BDD.mk false id t f, by simp [h], ?_, ?_, ?_, ?_, ?_⟩
    · rw [BDD.wellFormed_node h0]; exact ⟨ht, hf⟩
    · rw [BDD.reduced_node h0 ht hf]; exact ⟨h, rt, rf⟩
    · exact Or.inr (Or.inr ⟨false, id, t, f, rfl, h0⟩)
    · intro a; simp [BDD.eval, h0]
    · intro lo hlo ot of
      rw [BDD.orderedFrom_node h0]; exact ⟨hlo, ot, of⟩

/-! ## Apply -/

namespace BDD

theorem applyCached_eq (op : Nat) (p q : BDD) : applyCached op p q = Apply op p q := by
  rw [applyCached]

/-- The leaf case of `Apply` returns the singleton named by the truth table. -/
theorem leafOp_eq (op : Nat) (pv qv : Bool) :
    (if (op >>> (3 - ((if pv = true then 2 else 0) + (if qv = true then 1 else 0)))) &&& 1 = 0
      then ctl.False else ctl.True) = mk (opBit op pv qv) 0 nil nil := by
  have key : ∀ k : Nat, (op >>> k) &&& 1 = op / 2 ^ k % 2 := by
    intro k; rw [Nat.and_one_is_mod, Nat.shiftRight_eq_div_pow]
  rw [key]
  unfold opBit
  rcases Nat.mod_two_eq_zero_or_one
    (op / 2 ^ (3 - ((if pv = true then 2 else 0) + (if qv = true then 1 else 0)))) with h | h
  · cases pv <;> cases qv <;> simp_all [ctl.True, ctl.False]
  · cases pv <;> cases qv <;> simp_all [ctl.True, ctl.False]

theorem Apply_leaf (op : Nat) (pv qv : Bool) (pt pf qt qf : BDD) :
    Apply op (mk pv 0 pt pf) (mk qv 0 qt qf) = some (mk (opBit op pv qv) 0 nil nil) := by
  rw [Apply]
  simp only [ne_eq, not_true_eq_false, or_self, if_false]
  rw [← leafOp_eq, apply_ite some]

theorem Apply_same (op : Nat) {pid : Nat} (h0 : pid ≠ 0) (pv qv : Bool) (pt pf qt qf : BDD) :
    Apply op (mk pv pid pt pf) (mk qv pid qt qf) =
      (Apply op pt qt).bind fun t => (Apply op pf qf).bind fun f => ctl.Node pid t f := by
  rw [Apply]
  simp only [ne_eq, h0, not_false_eq_true, or_self, if_true, applyCached_eq]
  cases Apply op pt qt with
  | none => rfl
  | some t => cases Apply op pf qf <;> rfl

theorem Apply_left (op : Nat) {pid qid : Nat} (h0 : pid ≠ 0) (h : pid < qid ∨ qid = 0)
    (pv qv : Bool) (pt pf qt qf : BDD) :
    Apply op (mk pv pid pt pf) (mk qv qid qt qf) =
      (Apply op pt (mk qv qid qt qf)).bind fun t =>
        (Apply op pf (mk qv qid qt qf)).bind fun f => ctl.Node pid t f := by
  have hne : pid ≠ qid := by rcases h with h | h <;> omega
  have hc : (pid ≠ 0 ∧ pid < qid) ∨ ¬ (qid ≠ 0) := by
    rcases h with h | h
    · exact Or.inl ⟨h0, h⟩
    · exact Or.inr (by simp [h])
  rw [Apply]
  rw [if_pos (Or.inl h0), if_neg hne, if_pos hc]
  simp only [applyCached_eq]
  cases Apply op pt (mk qv qid qt qf) with
  | none => rfl
  | some t => cases Apply op pf (mk qv qid qt qf) <;> rfl

theorem Apply_right (op : Nat) {pid qid : Nat} (h0 : qid ≠ 0) (h : qid < pid ∨ pid = 0)
    (pv qv : Bool) (pt pf qt qf : BDD) :
    Apply op (mk pv pid pt pf) (mk qv qid qt qf) =
      (Apply op (mk pv pid pt pf) qt).bind fun t =>
        (Apply op (mk pv pid pt pf) qf).bind fun f => ctl.Node qid t f := by
  have hne : pid ≠ qid := by rcases h with h | h <;> omega
  have hc : ¬ ((pid ≠ 0 ∧ pid < qid) ∨ ¬ (qid ≠ 0)) := by
    rintro (⟨_, h1⟩ | h1)
    · rcases h with h | h <;> omega
    · exact h1 h0
  rw [Apply]
  rw [if_pos (Or.inr h0), if_neg hne, if_neg hc]
  simp only [applyCached_eq]
  cases Apply op (mk pv pid pt pf) qt with
  | none => rfl
  | some t => cases Apply op (mk pv pid pt pf) qf <;> rfl

theorem Apply_spec_aux (op : Nat) : ∀ (n : Nat) (p q : BDD), size p + size q ≤ n →
    wellFormed p = true → wellFormed q = true →
    ∃ r, Apply op p q = some r ∧ ApplyPost op p q r := by
  intro n
  induction n with
  | zero =>
    intro p q hn hp hq
    cases p with
    | nil => simp [wellFormed] at hp
    | mk pv pid pt pf => simp [size] at hn
  | succ n ih =>
    intro p q hn hp hq
    cases p with
    | nil => simp [wellFormed] at hp
    | mk pv pid pt pf =>
    cases q with
    | nil => simp [wellFormed] at hq
    | mk qv qid qt qf =>
    simp only [size] at hn
    by_cases hp0 : pid = 0
    · by_cases hq0 : qid = 0
      · -- both operands are leaves
        subst hp0; subst hq0
        refine ⟨_, Apply_leaf op pv qv pt pf qt qf, ?_, ?_, ?_, ?_, ?_⟩
        · simp [wellFormed]
        · simp [reduced]
        · cases opBit op pv qv
          · exact Or.inr (Or.inl rfl)
          · exact Or.inl rfl
        · intro a; simp [eval]
        · intro lo _ _; simp [orderedFrom]
      · -- only q is a node
        have hq2 := (wellFormed_node hq0).1 hq
        obtain ⟨t, et, wt, rt, st, evt, ot⟩ := ih (mk pv pid pt pf) qt (by simp only [size]; omega) hp hq2.1
        obtain ⟨f, ef, wf, rf, _, evf, of⟩ := ih (mk pv pid pt pf) qf (by simp only [size]; omega) hp hq2.2
        obtain ⟨r, er, wr, rr, sr, evr, or⟩ := Node_spec hq0 wt wf rt rf st
        refine ⟨r, ?_, wr, rr, sr, ?_, ?_⟩
        · rw [Apply_right op hq0 (Or.inr hp0), et, ef]; exact er
        · intro a
          rw [evr, evt, evf]
          simp only [eval, ne_eq, hq0, not_false_eq_true, if_true]
          split <;> rfl
        · intro lo op oq
          rw [orderedFrom_node hq0] at oq
          have op2 : orderedFrom qid (mk pv pid pt pf) = true := orderedFrom_raise op (Or.inl hp0)
          exact or lo oq.1 (ot qid op2 oq.2.1) (of qid op2 oq.2.2)
    · have hp2 := (wellFormed_node hp0).1 hp
      by_cases hlt : pid < qid ∨ qid = 0
      · -- split on the id of p
        obtain ⟨t, et, wt, rt, st, evt, ot⟩ := ih pt (mk qv qid qt qf) (by simp only [size]; omega) hp2.1 hq
        obtain ⟨f, ef, wf, rf, _, evf, of⟩ := ih pf (mk qv qid qt qf) (by simp only [size]; omega) hp2.2 hq
        obtain ⟨r, er, wr, rr, sr, evr, or⟩ := Node_spec hp0 wt wf rt rf st
        refine ⟨r, ?_, wr, rr, sr, ?_, ?_⟩
        · rw [Apply_left op hp0 hlt, et, ef]; exact er
        · intro a
          rw [evr, evt, evf]
          simp only [eval, ne_eq, hp0, not_false_eq_true, if_true]
          split <;> rfl
        · intro lo op oq
          rw [orderedFrom_node hp0] at op
          have oq2 : orderedFrom pid (mk qv qid qt qf) = true :=
            orderedFrom_raise oq (by rcases hlt with h | h; exact Or.inr h; exact Or.inl h)
          exact or lo op.1 (ot pid op.2.1 oq2) (of pid op.2.2 oq2)
      · have hq0 : qid ≠ 0 := fun h => hlt (Or.inr h)
        have hq2 := (wellFormed_node hq0).1 hq
        by_cases heq : pid = qid
        · -- both are nodes with the same id
          subst heq
          obtain ⟨t, et, wt, rt, st, evt, ot⟩ := ih pt qt (by omega) hp2.1 hq2.1
          obtain ⟨f, ef, wf, rf, _, evf, of⟩ := ih pf qf (by omega) hp2.2 hq2.2
          obtain ⟨r, er, wr, rr, sr, evr, or⟩ := Node_spec hp0 wt wf rt rf st
          refine ⟨r, ?_, wr, rr, sr, ?_, ?_⟩
          · rw [Apply_same op hp0, et, ef]; exact er
          · intro a
            rw [evr, evt, evf]
            simp only [eval, ne_eq, hp0, not_false_eq_true, if_true]
            split <;> rfl
          · intro lo op oq
            rw [orderedFrom_node hp0] at op oq
            exact or lo op.1 (ot pid op.2.1 oq.2.1) (of pid op.2.2 oq.2.2)
        · -- split on the id of q
          have hgt : qid < pid := by
            have : ¬ pid < qid := fun h => hlt (Or.inl h)
            omega
          obtain ⟨t, et, wt, rt, st, evt, ot⟩ := ih (mk pv pid pt pf) qt (by simp only [size]; omega) hp hq2.1
          obtain ⟨f, ef, wf, rf, _, evf, of⟩ := ih (mk pv pid pt pf) qf (by simp only [size]; omega) hp hq2.2
          obtain ⟨r, er, wr, rr, sr, evr, or⟩ := Node_spec hq0 wt wf rt rf st
          refine ⟨r, ?_, wr, rr, sr, ?_, ?_⟩
          · rw [Apply_right op hq0 (Or.inl hgt), et, ef]; exact er
          · intro a
            rw [evr, evt, evf]
            simp only [eval, ne_eq, hq0, not_false_eq_true, if_true]
            split <;> rfl
          · intro lo op oq
            rw [orderedFrom_node hq0] at oq
            have op2 : orderedFrom qid (mk pv pid pt pf) = true := orderedFrom_raise op (Or.inr hgt)
            exact or lo oq.1 (ot qid op2 oq.2.1) (of qid op2 oq.2.2)

theorem Apply_spec (op : Nat) (p q : BDD) (hp : wellFormed p = true) (hq : wellFormed q = true) :
    ∃ r, Apply op p q = some r ∧ ApplyPost op p q r :=
  Apply_spec_aux op (size p + size q) p q le_rfl hp hq

/-! ## Canonicity -/

theorem eval_update_true {v : Bool} {id : Nat} {t f : BDD} (h0 : id ≠ 0) {lo : Nat}
    (h : orderedFrom lo (mk v id t f) = true) (a : Nat → Bool) :
    eval (mk v id t f) (update a id true) = eval t a := by
  rw [orderedFrom_node h0] at h
  simp only [eval, ne_eq, h0, not_false_eq_true, if_true, update]
  exact eval_congr h.2.1 (fun x hx => by simp [update, Nat.ne_of_gt hx])

theorem eval_update_false {v : Bool} {id : Nat} {t f : BDD} (h0 : id ≠ 0) {lo : Nat}
    (h : orderedFrom lo (mk v id t f) = true) (a : Nat → Bool) :
    eval (mk v id t f) (update a id false) = eval f a := by
  rw [orderedFrom_node h0] at h
  simp only [eval, ne_eq, h0, not_false_eq_true, if_true, update]
  exact eval_congr h.2.2 (fun x hx => by simp [update, Nat.ne_of_gt hx])

theorem eval_update_above {q : BDD} {id : Nat} (h : orderedFrom id q = true)
    (a : Nat → Bool) (b : Bool) : eval q (update a id b) = eval q a :=
  eval_congr h (fun x hx => by simp [update, Nat.ne_of_gt hx])

/-- If a node agrees everywhere with a diagram that lies above its id, its two
branches agree everywhere. -/
theorem branches_agree {v : Bool} {id : Nat} {t f q : BDD} (h0 : id ≠ 0) {lo : Nat}
    (hp : orderedFrom lo (mk v id t f) = true) (hq : orderedFrom id q = true)
    (h : ∀ a, eval (mk v id t f) a = eval q a) : ∀ a, eval t a = eval f a := by
  intro a
  rw [← eval_update_true h0 hp a, ← eval_update_false h0 hp a, h, h,
    eval_update_above hq, eval_update_above hq]

theorem canonical_aux : ∀ (n : Nat) (p q : BDD), size p + size q ≤ n →
    ordered p = true → ordered q = true → reduced p = true → reduced q = true →
    (∀ a, eval p a = eval q a) → shape p = shape q := by
  intro n
  induction n with
  | zero =>
    intro p q hn hp
    cases p with
    | nil => simp [ordered, orderedFrom] at hp
    | mk pv pid pt pf => simp [size] at hn
  | succ n ih =>
    intro p q hn hp hq rp rq h
    cases p with
    | nil => simp [ordered, orderedFrom] at hp
    | mk pv pid pt pf =>
    cases q with
    | nil => simp [ordered, orderedFrom] at hq
    | mk qv qid qt qf =>
    simp only [size] at hn
    unfold ordered at hp hq
    -- a node whose branches agree everywhere is not reduced
    have noP : pid ≠ 0 → ¬ ∀ a, eval pt a = eval pf a := by
      intro h0 hag
      have o := (orderedFrom_node h0).1 hp
      have r := (reduced_node h0 (wellFormed_of_orderedFrom o.2.1)
        (wellFormed_of_orderedFrom o.2.2)).1 rp
      exact r.1 (ih pt pf (by omega) (orderedFrom_mono (Nat.zero_le _) o.2.1)
        (orderedFrom_mono (Nat.zero_le _) o.2.2) r.2.1 r.2.2 hag)
    have noQ : qid ≠ 0 → ¬ ∀ a, eval qt a = eval qf a := by
      intro h0 hag
      have o := (orderedFrom_node h0).1 hq
      have r := (reduced_node h0 (wellFormed_of_orderedFrom o.2.1)
        (wellFormed_of_orderedFrom o.2.2)).1 rq
      exact r.1 (ih qt qf (by omega) (orderedFrom_mono (Nat.zero_le _) o.2.1)
        (orderedFrom_mono (Nat.zero_le _) o.2.2) r.2.1 r.2.2 hag)
    by_cases hp0 : pid = 0
    · by_cases hq0 : qid = 0
      · subst hp0; subst hq0
        have := h (fun _ => false)
        simp only [eval, ne_eq, not_true_eq_false, if_false] at this
        simp [shape, this]
      · exact absurd (branches_agree hq0 hq (orderedFrom_raise hp (Or.inl hp0))
          (fun a => (h a).symm)) (noQ hq0)
    · by_cases hlt : pid < qid ∨ qid = 0
      · exact absurd (branches_agree hp0 hp
          (orderedFrom_raise hq (by rcases hlt with h | h; exact Or.inr h; exact Or.inl h)) h)
          (noP hp0)
      · have hq0 : qid ≠ 0 := fun h => hlt (Or.inr h)
        by_cases heq : pid = qid
        · subst heq
          have op := (orderedFrom_node hp0).1 hp
          have oq := (orderedFrom_node hp0).1 hq
          have rp2 := (reduced_node hp0 (wellFormed_of_orderedFrom op.2.1)
            (wellFormed_of_orderedFrom op.2.2)).1 rp
          have rq2 := (reduced_node hp0 (wellFormed_of_orderedFrom oq.2.1)
            (wellFormed_of_orderedFrom oq.2.2)).1 rq
          have ht : shape pt = shape qt :=
            ih pt qt (by omega) (orderedFrom_mono (Nat.zero_le _) op.2.1)
              (orderedFrom_mono (Nat.zero_le _) oq.2.1) rp2.2.1 rq2.2.1
              (fun a => by
                rw [← eval_update_true hp0 hp a, ← eval_update_true hp0 hq a, h])
          have hf : shape pf = shape qf :=
            ih pf qf (by omega) (orderedFrom_mono (Nat.zero_le _) op.2.2)
              (orderedFrom_mono (Nat.zero_le _) oq.2.2) rp2.2.2 rq2.2.2
              (fun a => by
                rw [← eval_update_false hp0 hp a, ← eval_update_false hp0 hq a, h])
          simp [shape, hp0, ht, hf]
        · have hgt : qid < pid := by
            have : ¬ pid < qid := fun h => hlt (Or.inl h)
            omega
          exact absurd (branches_agree hq0 hq (orderedFrom_raise hp (Or.inr hgt))
            (fun a => (h a).symm)) (noQ hq0)

/-- Ordered reduced diagrams that denote the same function have the same
structure. -/
theorem canonical {p q : BDD} (hp : ordered p = true) (hq : ordered q = true)
    (rp : reduced p = true) (rq : reduced q = true)
    (h : ∀ a, eval p a = eval q a) : shape p = shape q :=
  canonical_aux (size p + size q) p q le_rfl hp hq rp rq h

end BDD

/-! ## More on the constructor -/

/-- What `Node` returns on well-formed branches, reduced or not. -/
theorem Node_basic {id : Nat} {t f : BDD} (h0 : id ≠ 0)
    (ht : t.wellFormed = true) (hf : f.wellFormed = true) :
    ∃ r, Node id t f = some r ∧ r.wellFormed = true ∧
      (∀ a, r.eval a = if a id then t.eval a else f.eval a) ∧
      (∀ lo, lo < id → t.orderedFrom id = true → f.orderedFrom id = true →
        r.orderedFrom lo = true) ∧
      (∀ x, x ≠ id → t.hasVar x = false → f.hasVar x = false → r.hasVar x = false) := by
  rw [Node_eq id ht hf]
  by_cases h : t.shape = f.shape
  · refine ⟨t, by simp [h], ht, ?_, ?_, ?_⟩
    · intro a
      rw [← BDD.eval_eq_of_shape h a]; simp
    · intro lo hlo ot _
      exact BDD.orderedFrom_mono (le_of_lt hlo) ot
    · intro x _ vt _
      exact vt
  · refine ⟨BDD.mk false id t f, by simp [h], ?_, ?_, ?_, ?_⟩
    · rw [BDD.wellFormed_node h0]; exact ⟨ht, hf⟩
    · intro a; simp [BDD.eval, h0]
    · intro lo hlo ot of
      rw [BDD.orderedFrom_node h0]; exact ⟨hlo, ot, of⟩
    · intro x hx vt vf
      have : ¬ id = x := fun e => hx e.symm
      simp [BDD.hasVar, vt, vf, this]

theorem Built_props {p : BDD} (h : Built p) :
    p.wellFormed = true ∧ p.reduced = true ∧ p.isResult := by
  induction h with
  | leafTrue => exact ⟨rfl, rfl, Or.inl rfl⟩
  | leafFalse => exact ⟨rfl, rfl, Or.inr (Or.inl rfl)⟩
  | node id t f r h0 _ _ hr iht ihf =>
    obtain ⟨r1, e, w, rd, sr, _, _⟩ := Node_spec h0 iht.1 ihf.1 iht.2.1 ihf.2.1 iht.2.2
    rw [hr] at e
    cases e
    exact ⟨w, rd, sr⟩

namespace BDD

/-! ## Set -/

theorem hasVar_of_orderedFrom {p : BDD} : ∀ {lo x : Nat},
    orderedFrom lo p = true → x ≤ lo → hasVar x p = false := by
  induction p with
  | nil => intro lo x h; simp [orderedFrom] at h
  | mk v id t f iht ihf =>
    intro lo x h hx
    by_cases h0 : id = 0
    · simp [hasVar, h0]
    · rw [orderedFrom_node h0] at h
      have h1 : ¬ id = x := by omega
      simp [hasVar, h1, iht h.2.1 (by omega : x ≤ id), ihf h.2.2 (by omega : x ≤ id)]

theorem update_ne (a : Nat → Bool) {x y : Nat} (v : Bool) (h : y ≠ x) :
    update a x v y = a y := by
  simp [update, h]

theorem Set_spec (id : Nat) (value : Bool) (hid : 1 ≤ id) (p : BDD) : ∀ lo : Nat,
    orderedFrom lo p = true →
    ∃ r, Set p id value = some r ∧ orderedFrom lo r = true ∧
      (∀ a, eval r a = eval p (update a id value)) ∧ hasVar id r = false := by
  induction p with
  | nil => intro lo h; simp [orderedFrom] at h
  | mk v pid t f iht ihf =>
    intro lo h
    by_cases he : pid = id
    · -- the root is the variable: return a branch
      subst he
      have h0 : pid ≠ 0 := by omega
      have o := (orderedFrom_node h0).1 h
      cases value with
      | true =>
        refine ⟨t, by simp [Set], orderedFrom_mono (le_of_lt o.1) o.2.1, ?_,
          hasVar_of_orderedFrom o.2.1 le_rfl⟩
        intro a; rw [eval_update_true h0 h]
      | false =>
        refine ⟨f, by simp [Set], orderedFrom_mono (le_of_lt o.1) o.2.2, ?_,
          hasVar_of_orderedFrom o.2.2 le_rfl⟩
        intro a; rw [eval_update_false h0 h]
    · by_cases h0 : pid = 0
      · -- a leaf is returned as it is
        subst h0
        refine ⟨mk v 0 t f, by simp [Set, he], h, ?_, by simp [hasVar]⟩
        intro a; simp [eval]
      · -- another variable: rebuild
        have o := (orderedFrom_node h0).1 h
        obtain ⟨t1, et, ot, evt, vt⟩ := iht pid o.2.1
        obtain ⟨f1, ef, of, evf, vf⟩ := ihf pid o.2.2
        obtain ⟨r, er, _, evr, or, vr⟩ :=
          Node_basic h0 (wellFormed_of_orderedFrom ot) (wellFormed_of_orderedFrom of)
        refine ⟨r, ?_, or lo o.1 ot of, ?_, vr id (fun e => he e.symm) vt vf⟩
        · simp only [Set, if_neg he, ne_eq, h0, not_false_eq_true, if_true, et, ef]
          exact er
        · intro a
          rw [evr, evt, evf]
          simp only [eval, ne_eq, h0, not_false_eq_true, if_true, update_ne a value he]

end BDD

/-! ## The truth tables of the derived operators -/

theorem opBit_imply (x y : Bool) : opBit 0b1101 x y = (!x || y) := by
  cases x <;> cases y <;> decide

theorem opBit_and (x y : Bool) : opBit 0b0001 x y = (x && y) := by
  cases x <;> cases y <;> decide

theorem opBit_or (x y : Bool) : opBit 0b0111 x y = (x || y) := by
  cases x <;> cases y <;> decide

theorem opBit_eq (x y : Bool) : opBit 0b1001 x y = (x == y) := by
  cases x <;> cases y <;> decide

theorem opBit_xor (x y : Bool) : opBit 0b0110 x y = (x != y) := by
  cases x <;> cases y <;> decide

/-! ## Next and Prev -/

theorem varNextID_ne_zero (id : Nat) : varNextID id ≠ 0 := by
  unfold varNextID
  intro h
  have := congrArg (fun n => n.testBit 0) h
  simp at this

/-- Tagging a current-state id and reverting the tag gives the id back. -/
theorem varID_varNextID {id : Nat} (he : id % 2 = 0) (hr : id < 2 ^ uintBits) :
    varID (varNextID id >>> 1) = id := by
  unfold varID varNextID
  rw [Nat.shiftRight_eq_div_pow, Nat.shiftLeft_eq, pow_one, Nat.or_div_two]
  have h1 : (1 : Nat) / 2 = 0 := by decide
  rw [h1, Nat.or_zero]
  have h2 : id / 2 * 2 = id := by omega
  rw [h2]
  exact Nat.mod_eq_of_lt hr

namespace BDD

theorem shape_leaf_inv {xv yv : Bool} {yid : Nat} {xt xf yt yf : BDD}
    (h : shape (mk xv 0 xt xf) = shape (mk yv yid yt yf)) : yid = 0 ∧ xv = yv := by
  by_cases h0 : yid = 0
  · subst h0
    simp [shape] at h
    exact ⟨rfl, h⟩
  · simp [shape, h0] at h
    exact absurd h.2.1.symm h0

theorem shape_node_inv {xv yv : Bool} {xid yid : Nat} {xt xf yt yf : BDD} (hx : xid ≠ 0)
    (h : shape (mk xv xid xt xf) = shape (mk yv yid yt yf)) :
    yid = xid ∧ shape xt = shape yt ∧ shape xf = shape yf := by
  by_cases h0 : yid = 0
  · subst h0
    simp [shape, hx] at h
  · simp [shape, h0, hx] at h
    exact ⟨h.1.symm, h.2.1, h.2.2⟩

theorem wellFormed_Node_result (k : Nat) {t f : BDD} (ht : wellFormed t = true)
    (hf : wellFormed f = true) :
    wellFormed (if shape t = shape f then t else mk false k t f) = true := by
  split
  · exact ht
  · simp [wellFormed, ht, hf]

/-- `Prev` maps diagrams of the same structure to diagrams of the same
structure. -/
theorem Prev_shape (x : BDD) : ∀ y : BDD, wellFormed x = true → wellFormed y = true →
    shape x = shape y →
    ∃ x1 y1, Prev x = some x1 ∧ Prev y = some y1 ∧ wellFormed x1 = true ∧
      wellFormed y1 = true ∧ shape x1 = shape y1 := by
  induction x with
  | nil => intro y hx; simp [wellFormed] at hx
  | mk xv xid xt xf iht ihf =>
    intro y hx hy hs
    cases y with
    | nil => simp [wellFormed] at hy
    | mk yv yid yt yf =>
      by_cases h0 : xid = 0
      · subst h0
        obtain ⟨hy0, _⟩ := shape_leaf_inv hs
        subst hy0
        exact ⟨_, _, by simp [Prev], by simp [Prev], hx, hy, hs⟩
      · obtain ⟨hyid, hst, hsf⟩ := shape_node_inv h0 hs
        subst hyid
        have hx2 := (wellFormed_node h0).1 hx
        have hy2 := (wellFormed_node h0).1 hy
        obtain ⟨xt1, yt1, ext, eyt, wxt, wyt, st⟩ := iht yt hx2.1 hy2.1 hst
        obtain ⟨xf1, yf1, exf, eyf, wxf, wyf, sf⟩ := ihf yf hx2.2 hy2.2 hsf
        refine ⟨_, _, ?_, ?_, wellFormed_Node_result (varID (yid >>> 1)) wxt wxf,
          wellFormed_Node_result (varID (yid >>> 1)) wyt wyf, ?_⟩
        · simp only [Prev, ne_eq, h0, not_false_eq_true, if_true, ext, exf]
          exact Node_eq _ wxt wxf
        · simp only [Prev, ne_eq, h0, not_false_eq_true, if_true, eyt, eyf]
          exact Node_eq _ wyt wyf
        · by_cases hc : shape xt1 = shape xf1
          · have hc2 : shape yt1 = shape yf1 := by rw [← st, ← sf]; exact hc
            rw [if_pos hc, if_pos hc2]; exact st
          · have hc2 : ¬ shape yt1 = shape yf1 := by rw [← st, ← sf]; exact hc
            rw [if_neg hc, if_neg hc2]
            simp only [shape, st, sf]

/-- `Next` followed by `Prev` restores the structure of a reduced diagram over
current-state ids. -/
theorem Next_Prev_shape (p : BDD) : wellFormed p = true → reduced p = true →
    current p = true → inRange p = true →
    ∃ r, Next p = some r ∧ wellFormed r = true ∧
      ∃ s, Prev r = some s ∧ wellFormed s = true ∧ shape s = shape p := by
  induction p with
  | nil => intro hw; simp [wellFormed] at hw
  | mk v id t f iht ihf =>
    intro hw hr hc hg
    by_cases h0 : id = 0
    · subst h0
      exact ⟨_, by simp [Next], hw, _, by simp [Prev], hw, rfl⟩
    · have hw2 := (wellFormed_node h0).1 hw
      have hr2 := (reduced_node h0 hw2.1 hw2.2).1 hr
      have hc2 : id % 2 = 0 ∧ current t = true ∧ current f = true := by
        simpa [current, h0, and_assoc] using hc
      have hg2 : id < 2 ^ uintBits ∧ inRange t = true ∧ inRange f = true := by
        simpa [inRange, h0, and_assoc] using hg
      obtain ⟨rt, ert, wrt, st, est, wst, sst⟩ := iht hw2.1 hr2.2.1 hc2.2.1 hg2.2.1
      obtain ⟨rf, erf, wrf, sf, esf, wsf, ssf⟩ := ihf hw2.2 hr2.2.2 hc2.2.2 hg2.2.2
      -- the tagged branches still differ
      have hne : ¬ shape rt = shape rf := by
        intro hs
        obtain ⟨x1, y1, ex, ey, _, _, hxy⟩ := Prev_shape rt rf wrt wrf hs
        rw [est] at ex; rw [esf] at ey
        cases ex; cases ey
        exact hr2.1 (by rw [← sst, ← ssf]; exact hxy)
      have hne2 : ¬ shape st = shape sf := by rw [sst, ssf]; exact hr2.1
      refine ⟨mk false (varNextID id) rt rf, ?_, ?_, mk false id st sf, ?_, ?_, ?_⟩
      · simp only [Next, ne_eq, h0, not_false_eq_true, if_true, ert, erf]
        rw [Node_eq _ wrt wrf, if_neg hne]
      · rw [wellFormed_node (varNextID_ne_zero id)]; exact ⟨wrt, wrf⟩
      · simp only [Prev, ne_eq, varNextID_ne_zero id, not_false_eq_true, if_true, est, esf]
        rw [Node_eq _ wst wsf, if_neg hne2, varID_varNextID hc2.1 hg2.1]
      · rw [wellFormed_node h0]; exact ⟨wst, wsf⟩
      · simp [shape, h0, sst, ssf]

end BDD

end ctl

namespace ctl

/-! ## Results that denote a constant -/

theorem eq_True_of_shape {r : BDD} (hr : r.isResult) (h : r.shape = BDD.shape ctl.True) :
    r = ctl.True := by
  rcases hr with hr | hr | ⟨v, id, t, f, hr, h0⟩
  · exact hr
  · subst hr; simp [ctl.True, ctl.False, BDD.shape] at h
  · subst hr; simp [ctl.True, BDD.shape, h0] at h

theorem eq_False_of_shape {r : BDD} (hr : r.isResult) (h : r.shape = BDD.shape ctl.False) :
    r = ctl.False := by
  rcases hr with hr | hr | ⟨v, id, t, f, hr, h0⟩
  · subst hr; simp [ctl.True, ctl.False, BDD.shape] at h
  · exact hr
  · subst hr; simp [ctl.False, BDD.shape, h0] at h

end ctl

/-! ## The contract -/

/-- C1: `Apply` is semantically correct.  For every operator `op` and all
well-formed diagrams `p` and `q`, `p.Apply(op, q)` returns a diagram whose value
at every assignment `a` is bit `3 - (2*p(a) + q(a))` of `op`, the truth table
entry for the pair `(p(a), q(a))` in the order 00, 01, 10, 11. -/
theorem Apply_truth_table (op : Nat) (p q : ctl.BDD)
    (hp : p.wellFormed = true) (hq : q.wellFormed = true) :
    ∃ r, p.Apply op q = some r ∧ ∀ a, r.eval a = ctl.opBit op (p.eval a) (q.eval a) := by
  obtain ⟨r, e, _, _, _, ev, _⟩ := ctl.BDD.Apply_spec op p q hp hq
  exact ⟨r, e, ev⟩

theorem Apply_truth_table_witness :
    (ctl.BDD.mk false 1 ctl.True ctl.False).wellFormed = true ∧
    (ctl.BDD.mk false 2 ctl.False ctl.True).wellFormed = true ∧
    ∃ r, (ctl.BDD.mk false 1 ctl.True ctl.False).Apply 0b0110
        (ctl.BDD.mk false 2 ctl.False ctl.True) = some r ∧
      ∀ a, r.eval a = ctl.opBit 0b0110 ((ctl.BDD.mk false 1 ctl.True ctl.False).eval a)
        ((ctl.BDD.mk false 2 ctl.False ctl.True).eval a) :=
  ⟨by decide, by decide, Apply_truth_table 0b0110 _ _ (by decide) (by decide)⟩

/-- C2: canonicity.  Two diagrams built from the `True`/`False` leaves
exclusively through `Node` with non-zero ids, whose ids strictly increase along
every root-to-leaf path and which evaluate to the same boolean under every
assignment, are `Equals`. -/
theorem Equals_of_same_function (p q : ctl.BDD) (bp : ctl.Built p) (bq : ctl.Built q)
    (op : p.ordered = true) (oq : q.ordered = true)
    (h : ∀ a, p.eval a = q.eval a) : p.Equals q = some true := by
  have hp := ctl.Built_props bp
  have hq := ctl.Built_props bq
  rw [ctl.BDD.Equals_eq_shape p q hp.1 hq.1, ctl.BDD.canonical op oq hp.2.1 hq.2.1 h]
  simp

theorem Equals_of_same_function_witness :
    ctl.Built (ctl.BDD.mk false 1 (ctl.BDD.mk false 2 ctl.True ctl.False) ctl.False) ∧
    (ctl.BDD.mk false 1 (ctl.BDD.mk false 2 ctl.True ctl.False) ctl.False).ordered = true ∧
    (ctl.BDD.mk false 1 (ctl.BDD.mk false 2 ctl.True ctl.False) ctl.False).Equals
      (ctl.BDD.mk false 1 (ctl.BDD.mk false 2 ctl.True ctl.False) ctl.False) = some true :=
  have b2 : ctl.Built (ctl.BDD.mk false 2 ctl.True ctl.False) :=
    ctl.Built.node 2 ctl.True ctl.False _ (by decide) ctl.Built.leafTrue ctl.Built.leafFalse
      (by decide)
  have b1 : ctl.Built (ctl.BDD.mk false 1 (ctl.BDD.mk false 2 ctl.True ctl.False) ctl.False) :=
    ctl.Built.node 1 (ctl.BDD.mk false 2 ctl.True ctl.False) ctl.False _ (by decide) b2
      ctl.Built.leafFalse (by decide)
  ⟨b1, by decide, Equals_of_same_function _ _ b1 b1 (by decide) (by decide) (fun _ => rfl)⟩

/-- C3: `Apply` preserves canonical form.  For every `op` and all diagrams `p`
and `q` whose ids strictly increase along every root-to-leaf path,
`p.Apply(op, q)` returns a diagram whose ids again strictly increase along
every root-to-leaf path and in which no node has a `True` branch that `Equals`
its `False` branch. -/
theorem Apply_ordered_reduced (op : Nat) (p q : ctl.BDD)
    (hp : p.ordered = true) (hq : q.ordered = true) :
    ∃ r, p.Apply op q = some r ∧ r.ordered = true ∧ r.reduced = true := by
  obtain ⟨r, e, _, rd, _, _, o⟩ := ctl.BDD.Apply_spec op p q
    (ctl.BDD.wellFormed_of_orderedFrom hp) (ctl.BDD.wellFormed_of_orderedFrom hq)
  exact ⟨r, e, o 0 hp hq, rd⟩

theorem Apply_ordered_reduced_witness :
    (ctl.BDD.mk false 1 ctl.True (ctl.BDD.mk false 3 ctl.True ctl.False)).ordered = true ∧
    (ctl.BDD.mk false 2 ctl.False ctl.True).ordered = true ∧
    ∃ r, (ctl.BDD.mk false 1 ctl.True (ctl.BDD.mk false 3 ctl.True ctl.False)).Apply 0b0111
        (ctl.BDD.mk false 2 ctl.False ctl.True) = some r ∧
      r.ordered = true ∧ r.reduced = true :=
  ⟨by decide, by decide, Apply_ordered_reduced 0b0111 _ _ (by decide) (by decide)⟩

/-- C4: each derived operator denotes its named connective.  For well-formed
`p` and `q` and every assignment `a`: `p.And(q)` evaluates to `p(a) AND q(a)`,
`p.Or(q)` to `p(a) OR q(a)`, `p.Xor(q)` to `p(a) != q(a)`, `p.Eq(q)` to
`p(a) == q(a)`, `p.Imply(q)` to `(NOT p(a)) OR q(a)` and `p.Neg()` to
`NOT p(a)`. -/
theorem derived_operators (p q : ctl.BDD)
    (hp : p.wellFormed = true) (hq : q.wellFormed = true) :
    (∃ r, p.And q = some r ∧ ∀ a, r.eval a = (p.eval a && q.eval a)) ∧
    (∃ r, p.Or q = some r ∧ ∀ a, r.eval a = (p.eval a || q.eval a)) ∧
    (∃ r, p.Xor q = some r ∧ ∀ a, r.eval a = (p.eval a != q.eval a)) ∧
    (∃ r, p.Eq q = some r ∧ ∀ a, r.eval a = (p.eval a == q.eval a)) ∧
    (∃ r, p.Imply q = some r ∧ ∀ a, r.eval a = (!p.eval a || q.eval a)) ∧
    (∃ r, p.Neg = some r ∧ ∀ a, r.eval a = !p.eval a) := by
  refine ⟨?_, ?_, ?_, ?_, ?_, ?_⟩
  · obtain ⟨r, e, _, _, _, ev, _⟩ := ctl.BDD.Apply_spec 0b0001 p q hp hq
    exact ⟨r, e, fun a => by rw [ev, ctl.opBit_and]⟩
  · obtain ⟨r, e, _, _, _, ev, _⟩ := ctl.BDD.Apply_spec 0b0111 p q hp hq
    exact ⟨r, e, fun a => by rw [ev, ctl.opBit_or]⟩
  · obtain ⟨r, e, _, _, _, ev, _⟩ := ctl.BDD.Apply_spec 0b0110 p q hp hq
    exact ⟨r, e, fun a => by rw [ev, ctl.opBit_xor]⟩
  · obtain ⟨r, e, _, _, _, ev, _⟩ := ctl.BDD.Apply_spec 0b1001 p q hp hq
    exact ⟨r, e, fun a => by rw [ev, ctl.opBit_eq]⟩
  · obtain ⟨r, e, _, _, _, ev, _⟩ := ctl.BDD.Apply_spec 0b1101 p q hp hq
    exact ⟨r, e, fun a => by rw [ev, ctl.opBit_imply]⟩
  · obtain ⟨r, e, _, _, _, ev, _⟩ := ctl.BDD.Apply_spec 0b1101 p ctl.False hp rfl
    refine ⟨r, e, fun a => ?_⟩
    rw [ev, ctl.opBit_imply]
    simp [ctl.False, ctl.BDD.eval]

theorem derived_operators_witness :
    (ctl.BDD.mk false 1 ctl.True ctl.False).wellFormed = true ∧
    (ctl.BDD.mk false 2 ctl.False ctl.True).wellFormed = true ∧
    ∃ r, (ctl.BDD.mk false 1 ctl.True ctl.False).And (ctl.BDD.mk false 2 ctl.False ctl.True)
        = some r ∧
      ∀ a, r.eval a = ((ctl.BDD.mk false 1 ctl.True ctl.False).eval a &&
        (ctl.BDD.mk false 2 ctl.False ctl.True).eval a) :=
  ⟨by decide, by decide, (derived_operators _ _ (by decide) (by decide)).1⟩

/-- C5: `Set` substitutes a fixed value for a variable.  For every diagram `p`
whose ids strictly increase along every root-to-leaf path, every id `>= 1` and
every value `v`, `p.Set(id, v)` returns a diagram whose value at every
assignment `a` is the value of `p` at `a` modified to map `id` to `v`. -/
theorem Set_substitutes (p : ctl.BDD) (id : Nat) (v : Bool)
    (hp : p.ordered = true) (hid : 1 ≤ id) :
    ∃ r, p.Set id v = some r ∧ ∀ a, r.eval a = p.eval (ctl.update a id v) := by
  obtain ⟨r, e, _, ev, _⟩ := ctl.BDD.Set_spec id v hid p 0 hp
  exact ⟨r, e, ev⟩

theorem Set_substitutes_witness :
    (ctl.BDD.mk false 1 (ctl.BDD.mk false 2 ctl.True ctl.False) ctl.False).ordered = true ∧
    1 ≤ 2 ∧
    ∃ r, (ctl.BDD.mk false 1 (ctl.BDD.mk false 2 ctl.True ctl.False) ctl.False).Set 2 true
        = some r ∧
      ∀ a, r.eval a =
        (ctl.BDD.mk false 1 (ctl.BDD.mk false 2 ctl.True ctl.False) ctl.False).eval
          (ctl.update a 2 true) :=
  ⟨by decide, by decide, Set_substitutes _ 2 true (by decide) (by decide)⟩

/-- C6: restriction law.  For every diagram `p` whose ids strictly increase
along every root-to-leaf path and every id `>= 1`, neither `p.Set(id, true)`
nor `p.Set(id, false)` contains a node labelled `id`. -/
theorem Set_drops_variable (p : ctl.BDD) (id : Nat)
    (hp : p.ordered = true) (hid : 1 ≤ id) :
    (∃ r, p.Set id true = some r ∧ r.hasVar id = false) ∧
    (∃ r, p.Set id false = some r ∧ r.hasVar id = false) := by
  obtain ⟨r1, e1, _, _, v1⟩ := ctl.BDD.Set_spec id true hid p 0 hp
  obtain ⟨r2, e2, _, _, v2⟩ := ctl.BDD.Set_spec id false hid p 0 hp
  exact ⟨⟨r1, e1, v1⟩, ⟨r2, e2, v2⟩⟩

theorem Set_drops_variable_witness :
    (ctl.BDD.mk false 1 (ctl.BDD.mk false 2 ctl.True ctl.False) ctl.False).ordered = true ∧
    1 ≤ 2 ∧
    (∃ r, (ctl.BDD.mk false 1 (ctl.BDD.mk false 2 ctl.True ctl.False) ctl.False).Set 2 true
        = some r ∧ r.hasVar 2 = false) ∧
    (∃ r, (ctl.BDD.mk false 1 (ctl.BDD.mk false 2 ctl.True ctl.False) ctl.False).Set 2 false
        = some r ∧ r.hasVar 2 = false) :=
  ⟨by decide, by decide, Set_drops_variable _ 2 (by decide) (by decide)⟩

/-- C7: `Exists` is existential quantification.  For every diagram `p` with
strictly increasing ids along every path and every id `>= 1`, `p.Exists(id)`
returns a diagram that is true at an assignment `a` iff `p` is true at `a` with
`id` set to true or at `a` with `id` set to false; in particular every
assignment satisfying `p` also satisfies `p.Exists(id)`, whatever value is
given to `id`. -/
theorem Exists_quantifies (p : ctl.BDD) (id : Nat)
    (hp : p.ordered = true) (hid : 1 ≤ id) :
    ∃ r, p.Exists id = some r ∧
      (∀ a, r.eval a = true ↔
        (p.eval (ctl.update a id true) = true ∨ p.eval (ctl.update a id false) = true)) ∧
      (∀ a, p.eval a = true → ∀ b, r.eval (ctl.update a id b) = true) ∧
      (∀ a, p.eval a = true → r.eval a = true) := by
  obtain ⟨t, et, ot, evt, _⟩ := ctl.BDD.Set_spec id true hid p 0 hp
  obtain ⟨f, ef, of, evf, _⟩ := ctl.BDD.Set_spec id false hid p 0 hp
  obtain ⟨r, e, _, _, _, ev, _⟩ := ctl.BDD.Apply_spec 0b0111 t f
    (ctl.BDD.wellFormed_of_orderedFrom ot) (ctl.BDD.wellFormed_of_orderedFrom of)
  have key : ∀ a, r.eval a = true ↔
      (p.eval (ctl.update a id true) = true ∨ p.eval (ctl.update a id false) = true) := by
    intro a
    rw [ev, ctl.opBit_or, evt, evf, Bool.or_eq_true]
  have same : ∀ a : Nat → Bool, ctl.update a id (a id) = a := by
    intro a
    funext y
    by_cases h : y = id
    · simp [ctl.update, h]
    · simp [ctl.update, h]
  have over : ∀ (a : Nat → Bool) (b c : Bool),
      ctl.update (ctl.update a id b) id c = ctl.update a id c := by
    intro a b c
    funext y
    by_cases h : y = id
    · simp [ctl.update, h]
    · simp [ctl.update, h]
  have sat : ∀ a, p.eval a = true → ∀ b, r.eval (ctl.update a id b) = true := by
    intro a ha b
    rw [key, over, over]
    have hs := same a
    cases hv : a id with
    | true => left; rw [hv] at hs; rw [hs]; exact ha
    | false => right; rw [hv] at hs; rw [hs]; exact ha
  refine ⟨r, ?_, key, sat, ?_⟩
  · simp only [ctl.BDD.Exists, et, ef]
    exact e
  · intro a ha
    have := sat a ha (a id)
    rwa [same] at this

theorem Exists_quantifies_witness :
    (ctl.BDD.mk false 1 (ctl.BDD.mk false 2 ctl.True ctl.False) ctl.False).ordered = true ∧
    1 ≤ 2 ∧
    ∃ r, (ctl.BDD.mk false 1 (ctl.BDD.mk false 2 ctl.True ctl.False) ctl.False).Exists 2
        = some r ∧
      (∀ a, r.eval a = true ↔
        ((ctl.BDD.mk false 1 (ctl.BDD.mk false 2 ctl.True ctl.False) ctl.False).eval
            (ctl.update a 2 true) = true ∨
          (ctl.BDD.mk false 1 (ctl.BDD.mk false 2 ctl.True ctl.False) ctl.False).eval
            (ctl.update a 2 false) = true)) ∧
      (∀ a, (ctl.BDD.mk false 1 (ctl.BDD.mk false 2 ctl.True ctl.False) ctl.False).eval a
          = true → ∀ b, r.eval (ctl.update a 2 b) = true) ∧
      (∀ a, (ctl.BDD.mk false 1 (ctl.BDD.mk false 2 ctl.True ctl.False) ctl.False).eval a
          = true → r.eval a = true) :=
  ⟨by decide, by decide, Exists_quantifies _ 2 (by decide) (by decide)⟩

/-- C8: `Contains` decides semantic containment.  For all diagrams `p` and `q`
whose ids strictly increase along every root-to-leaf path, `p.Contains(q)`
returns true iff every assignment that satisfies `q` also satisfies `p`. -/
theorem Contains_iff (p q : ctl.BDD) (hp : p.ordered = true) (hq : q.ordered = true) :
    ∃ b, p.Contains q = some b ∧
      (b = true ↔ ∀ a, q.eval a = true → p.eval a = true) := by
  obtain ⟨r, e, _, rd, sr, ev, o⟩ := ctl.BDD.Apply_spec 0b1101 q p
    (ctl.BDD.wellFormed_of_orderedFrom hq) (ctl.BDD.wellFormed_of_orderedFrom hp)
  refine ⟨decide (r = ctl.True), ?_, ?_⟩
  · simp only [ctl.BDD.Contains, ctl.BDD.Imply, e]
  · rw [decide_eq_true_iff]
    constructor
    · intro hr a hqa
      have := ev a
      rw [hr, ctl.opBit_imply, hqa] at this
      simpa [ctl.True, ctl.BDD.eval] using this.symm
    · intro h
      apply ctl.eq_True_of_shape sr
      apply @ctl.BDD.canonical r ctl.True (o 0 hq hp) (by decide) rd (by decide)
      intro a
      rw [ev, ctl.opBit_imply]
      cases hqa : q.eval a with
      | false => rfl
      | true => rw [h a hqa]; rfl

theorem Contains_iff_witness :
    (ctl.BDD.mk false 1 ctl.True ctl.False).ordered = true ∧
    (ctl.BDD.mk false 1 (ctl.BDD.mk false 2 ctl.True ctl.False) ctl.False).ordered = true ∧
    ∃ b, (ctl.BDD.mk false 1 ctl.True ctl.False).Contains
        (ctl.BDD.mk false 1 (ctl.BDD.mk false 2 ctl.True ctl.False) ctl.False) = some b ∧
      (b = true ↔ ∀ a,
        (ctl.BDD.mk false 1 (ctl.BDD.mk false 2 ctl.True ctl.False) ctl.False).eval a = true →
        (ctl.BDD.mk false 1 ctl.True ctl.False).eval a = true) :=
  ⟨by decide, by decide, Contains_iff _ _ (by decide) (by decide)⟩

/-- C9: `Intersects` decides semantic intersection.  For all diagrams `p` and
`q` whose ids strictly increase along every root-to-leaf path,
`p.Intersects(q)` returns true iff some assignment satisfies both `p` and
`q`. -/
theorem Intersects_iff (p q : ctl.BDD) (hp : p.ordered = true) (hq : q.ordered = true) :
    ∃ b, p.Intersects q = some b ∧
      (b = true ↔ ∃ a, p.eval a = true ∧ q.eval a = true) := by
  obtain ⟨r, e, _, rd, sr, ev, o⟩ := ctl.BDD.Apply_spec 0b0001 q p
    (ctl.BDD.wellFormed_of_orderedFrom hq) (ctl.BDD.wellFormed_of_orderedFrom hp)
  refine ⟨decide (r ≠ ctl.False), ?_, ?_⟩
  · simp only [ctl.BDD.Intersects, ctl.BDD.And, e]
  · rw [decide_eq_true_iff]
    constructor
    · intro hr
      by_contra hno
      apply hr
      apply ctl.eq_False_of_shape sr
      apply @ctl.BDD.canonical r ctl.False (o 0 hq hp) (by decide) rd (by decide)
      intro a
      rw [ev, ctl.opBit_and]
      cases hqa : q.eval a with
      | false => rfl
      | true =>
        cases hpa : p.eval a with
        | false => rfl
        | true => exact absurd ⟨a, hpa, hqa⟩ hno
    · rintro ⟨a, hpa, hqa⟩ hr
      have := ev a
      rw [hr, ctl.opBit_and, hpa, hqa] at this
      simp [ctl.False, ctl.BDD.eval] at this

theorem Intersects_iff_witness :
    (ctl.BDD.mk false 1 ctl.True ctl.False).ordered = true ∧
    (ctl.BDD.mk false 2 ctl.False ctl.True).ordered = true ∧
    ∃ b, (ctl.BDD.mk false 1 ctl.True ctl.False).Intersects
        (ctl.BDD.mk false 2 ctl.False ctl.True) = some b ∧
      (b = true ↔ ∃ a, (ctl.BDD.mk false 1 ctl.True ctl.False).eval a = true ∧
        (ctl.BDD.mk false 2 ctl.False ctl.True).eval a = true) :=
  ⟨by decide, by decide, Intersects_iff _ _ (by decide) (by decide)⟩

/-- C10: Next/Prev inverse law.  With `varNextID` setting the lowest bit and
`varID` shifting left by one, for every reduced well-formed diagram `p` all of
whose node ids are current-state ids (lowest bit 0) of type `uint`,
`p.Next()` and then `Prev()` return a diagram that `Equals` `p`. -/
theorem Next_Prev_Equals (p : ctl.BDD) (hw : p.wellFormed = true) (hr : p.reduced = true)
    (hc : p.current = true) (hg : p.inRange = true) :
    ∃ r, p.Next = some r ∧ ∃ s, r.Prev = some s ∧ s.Equals p = some true := by
  obtain ⟨r, er, _, s, es, ws, hs⟩ := ctl.BDD.Next_Prev_shape p hw hr hc hg
  refine ⟨r, er, s, es, ?_⟩
  rw [ctl.BDD.Equals_eq_shape s p ws hw, hs]
  simp

theorem Next_Prev_Equals_witness :
    (ctl.BDD.mk false 2 (ctl.BDD.mk false 4 ctl.True ctl.False) ctl.False).wellFormed = true ∧
    (ctl.BDD.mk false 2 (ctl.BDD.mk false 4 ctl.True ctl.False) ctl.False).reduced = true ∧
    (ctl.BDD.mk false 2 (ctl.BDD.mk false 4 ctl.True ctl.False) ctl.False).current = true ∧
    (ctl.BDD.mk false 2 (ctl.BDD.mk false 4 ctl.True ctl.False) ctl.False).inRange = true ∧
    ∃ r, (ctl.BDD.mk false 2 (ctl.BDD.mk false 4 ctl.True ctl.False) ctl.False).Next = some r ∧
      ∃ s, r.Prev = some s ∧
        s.Equals (ctl.BDD.mk false 2 (ctl.BDD.mk false 4 ctl.True ctl.False) ctl.False)
          = some true :=
  ⟨by decide, by decide, by decide, by decide,
    Next_Prev_Equals _ (by decide) (by decide) (by decide) (by decide)⟩

/-- C11: `Node` is the reducing constructor.  For every id `>= 1` and
well-formed `t` and `f`, `t.Equals(f)` returns; `Node(id, t, f)` returns `t`
itself when `t.Equals(f)`, and otherwise a non-leaf with `ID` `id`, `True`
branch `t` and `False` branch `f`; if `t` and `f` are reduced so is the
result; and every diagram built from the `True`/`False` leaves using only
`Node` has no node whose `True` branch `Equals` its `False` branch. -/
theorem Node_reducing_constructor (id : Nat) (t f : ctl.BDD) (hid : 1 ≤ id)
    (ht : t.wellFormed = true) (hf : f.wellFormed = true) :
    (∃ b, t.Equals f = some b) ∧
    (t.Equals f = some true → ctl.Node id t f = some t) ∧
    (t.Equals f = some false →
      ctl.Node id t f = some (ctl.BDD.mk false id t f) ∧
      (ctl.BDD.mk false id t f).Node = some true) ∧
    (t.reduced = true → f.reduced = true →
      ∃ r, ctl.Node id t f = some r ∧ r.reduced = true) ∧
    (∀ p, ctl.Built p → p.reduced = true) := by
  have h0 : id ≠ 0 := by omega
  refine ⟨⟨_, ctl.BDD.Equals_eq_shape t f ht hf⟩, ?_, ?_, ?_, ?_⟩
  · intro h
    simp [ctl.Node, h]
  · intro h
    refine ⟨by simp [ctl.Node, h, ctl.registerNodeRef], ?_⟩
    simp [ctl.BDD.Node, h0]
  · intro rt rf
    rw [ctl.Node_eq id ht hf]
    by_cases h : t.shape = f.shape
    · exact ⟨t, by simp [h], rt⟩
    · refine ⟨ctl.BDD.mk false id t f, by simp [h], ?_⟩
      rw [ctl.BDD.reduced_node h0 ht hf]
      exact ⟨h, rt, rf⟩
  · intro p hp
    exact (ctl.Built_props hp).2.1

theorem Node_reducing_constructor_witness :
    1 ≤ 3 ∧ (ctl.BDD.mk false 4 ctl.True ctl.False).wellFormed = true ∧
    ctl.False.wellFormed = true ∧
    (∃ b, (ctl.BDD.mk false 4 ctl.True ctl.False).Equals ctl.False = some b) ∧
    ((ctl.BDD.mk false 4 ctl.True ctl.False).Equals ctl.False = some true →
      ctl.Node 3 (ctl.BDD.mk false 4 ctl.True ctl.False) ctl.False
        = some (ctl.BDD.mk false 4 ctl.True ctl.False)) ∧
    ((ctl.BDD.mk false 4 ctl.True ctl.False).Equals ctl.False = some false →
      ctl.Node 3 (ctl.BDD.mk false 4 ctl.True ctl.False) ctl.False
        = some (ctl.BDD.mk false 3 (ctl.BDD.mk false 4 ctl.True ctl.False) ctl.False) ∧
      (ctl.BDD.mk false 3 (ctl.BDD.mk false 4 ctl.True ctl.False) ctl.False).Node
        = some true) ∧
    ((ctl.BDD.mk false 4 ctl.True ctl.False).reduced = true → ctl.False.reduced = true →
      ∃ r, ctl.Node 3 (ctl.BDD.mk false 4 ctl.True ctl.False) ctl.False = some r ∧
        r.reduced = true) ∧
    (∀ p, ctl.Built p → p.reduced = true) :=
  ⟨by decide, by decide, by decide,
    Node_reducing_constructor 3 _ _ (by decide) (by decide) (by decide)⟩

namespace ctl

/-! ## Equals as a relation -/

theorem shape_mk_eq_iff (pv qv : Bool) (pid qid : Nat) (pt pf qt qf : BDD) :
    BDD.shape (BDD.mk pv pid pt pf) = BDD.shape (BDD.mk qv qid qt qf) ↔
      pid = qid ∧ ((pid = 0 ∧ pv = qv) ∨
        (pid ≠ 0 ∧ pt.shape = qt.shape ∧ pf.shape = qf.shape)) := by
  by_cases hp : pid = 0
  · by_cases hq : qid = 0
    · subst hp; subst hq; simp [BDD.shape]
    · subst hp
      have : ¬ 0 = qid := fun h => hq h.symm
      simp [BDD.shape, hq, this]
  · by_cases hq : qid = 0
    · subst hq; simp [BDD.shape, hp]
    · simp [BDD.shape, hp, hq]

theorem Equals_true_iff {p q : BDD} (hp : p.wellFormed = true) (hq : q.wellFormed = true) :
    p.Equals q = some true ↔ p.shape = q.shape := by
  rw [BDD.Equals_eq_shape p q hp hq]
  simp

end ctl

/-- C12: `Equals` is structural equality.  For well-formed `p` and `q`,
`p.Equals(q)` returns, and it is true iff `p` and `q` have the same `ID` and
either both are leaves with the same `Value` or both are non-leaves whose
`True` branches are `Equals` and whose `False` branches are `Equals`;
consequently `Equals` is reflexive, symmetric and transitive on well-formed
diagrams, and diagrams that are `Equals` evaluate identically under every
assignment. -/
theorem Equals_structural (p q r : ctl.BDD) (hp : p.wellFormed = true)
    (hq : q.wellFormed = true) (hr : r.wellFormed = true) :
    (∃ b, p.Equals q = some b) ∧
    (∀ pv pid pt pf qv qid qt qf, p = ctl.BDD.mk pv pid pt pf → q = ctl.BDD.mk qv qid qt qf →
      (p.Equals q = some true ↔
        pid = qid ∧ ((pid = 0 ∧ pv = qv) ∨
          (pid ≠ 0 ∧ pt.Equals qt = some true ∧ pf.Equals qf = some true)))) ∧
    p.Equals p = some true ∧
    (p.Equals q = some true → q.Equals p = some true) ∧
    (p.Equals q = some true → q.Equals r = some true → p.Equals r = some true) ∧
    (p.Equals q = some true → ∀ a, p.eval a = q.eval a) := by
  refine ⟨⟨_, ctl.BDD.Equals_eq_shape p q hp hq⟩, ?_, ctl.BDD.Equals_self p, ?_, ?_, ?_⟩
  · intro pv pid pt pf qv qid qt qf ep eq
    subst ep; subst eq
    rw [ctl.Equals_true_iff hp hq, ctl.shape_mk_eq_iff]
    by_cases h0 : pid = 0
    · simp [h0]
    · by_cases he : pid = qid
      · subst he
        have hp2 := (ctl.BDD.wellFormed_node h0).1 hp
        have hq2 := (ctl.BDD.wellFormed_node h0).1 hq
        rw [ctl.Equals_true_iff hp2.1 hq2.1, ctl.Equals_true_iff hp2.2 hq2.2]
      · simp [he]
  · intro h
    rw [ctl.Equals_true_iff hp hq] at h
    rw [ctl.Equals_true_iff hq hp]
    exact h.symm
  · intro h1 h2
    rw [ctl.Equals_true_iff hp hq] at h1
    rw [ctl.Equals_true_iff hq hr] at h2
    rw [ctl.Equals_true_iff hp hr]
    exact h1.trans h2
  · intro h a
    rw [ctl.Equals_true_iff hp hq] at h
    exact ctl.BDD.eval_eq_of_shape h a

theorem Equals_structural_witness :
    (ctl.BDD.mk false 1 ctl.True ctl.False).wellFormed = true ∧
    (ctl.BDD.mk true 1 ctl.True ctl.False).wellFormed = true ∧
    (ctl.BDD.mk false 1 ctl.True ctl.True).wellFormed = true ∧
    (ctl.BDD.mk false 1 ctl.True ctl.False).Equals (ctl.BDD.mk false 1 ctl.True ctl.False)
      = some true ∧
    ((ctl.BDD.mk false 1 ctl.True ctl.False).Equals (ctl.BDD.mk true 1 ctl.True ctl.False)
        = some true →
      (ctl.BDD.mk true 1 ctl.True ctl.False).Equals (ctl.BDD.mk false 1 ctl.True ctl.False)
        = some true) ∧
    ((ctl.BDD.mk false 1 ctl.True ctl.False).Equals (ctl.BDD.mk true 1 ctl.True ctl.False)
        = some true →
      ∀ a, (ctl.BDD.mk false 1 ctl.True ctl.False).eval a
        = (ctl.BDD.mk true 1 ctl.True ctl.False).eval a) :=
  have h := Equals_structural (ctl.BDD.mk false 1 ctl.True ctl.False)
    (ctl.BDD.mk true 1 ctl.True ctl.False) (ctl.BDD.mk false 1 ctl.True ctl.True)
    (by decide) (by decide) (by decide)
  ⟨by decide, by decide, by decide, h.2.2.1, h.2.2.2.1, h.2.2.2.2.2⟩

namespace ctl

/-! ## Tagging and the order of the ids -/

theorem varNextID_eq (id : Nat) : varNextID id = 2 * (id / 2) + 1 := by
  unfold varNextID
  have h1 : (id ||| 1) / 2 = id / 2 := by
    rw [Nat.or_div_two]
    have : (1 : Nat) / 2 = 0 := by decide
    rw [this, Nat.or_zero]
  have h2 : (id ||| 1) % 2 = 1 := by
    rw [Nat.or_mod_two_eq_one]; right; rfl
  omega

theorem varID_shift {id : Nat} (hr : id < 2 ^ uintBits) : varID (id >>> 1) = 2 * (id / 2) := by
  unfold varID
  rw [Nat.shiftRight_eq_div_pow, Nat.shiftLeft_eq, pow_one]
  have h : id / 2 * 2 < 2 ^ uintBits := by omega
  rw [Nat.mod_eq_of_lt h]
  omega

namespace BDD

theorem separatedFrom_node {v : Bool} {lo id : Nat} {t f : BDD} (h0 : id ≠ 0) :
    separatedFrom lo (mk v id t f) = true ↔
      lo < id ∧ separatedFrom (varNextID id) t = true ∧
        separatedFrom (varNextID id) f = true := by
  simp [separatedFrom, h0, and_assoc]

theorem inRange_node {v : Bool} {id : Nat} {t f : BDD} (h0 : id ≠ 0) :
    inRange (mk v id t f) = true ↔
      id < 2 ^ uintBits ∧ inRange t = true ∧ inRange f = true := by
  simp [inRange, h0, and_assoc]

/-- The result of `Node` is ordered above every bound below its id. -/
theorem orderedFrom_Node_result {k m : Nat} {t f : BDD} (hm : m < k ∨ (k = 0 ∧ m = 0))
    (ot : orderedFrom k t = true) (of : orderedFrom k f = true) :
    orderedFrom m (if shape t = shape f then t else mk false k t f) = true := by
  split
  · apply orderedFrom_mono _ ot
    rcases hm with hm | hm <;> omega
  · by_cases hk : k = 0
    · simp [orderedFrom, hk]
    · rw [orderedFrom_node hk]
      rcases hm with hm | hm
      · exact ⟨hm, ot, of⟩
      · exact absurd hm.1 hk

theorem Next_ordered (p : BDD) : ∀ lo m : Nat, separatedFrom lo p = true →
    (∀ id, lo < id → m < varNextID id) →
    ∃ r, Next p = some r ∧ orderedFrom m r = true := by
  induction p with
  | nil => intro lo m h; simp [separatedFrom] at h
  | mk v id t f iht ihf =>
    intro lo m h hm
    by_cases h0 : id = 0
    · subst h0
      exact ⟨mk v 0 t f, by simp [Next], by simp [orderedFrom]⟩
    · have s := (separatedFrom_node h0).1 h
      have below : ∀ x, varNextID id < x → varNextID id < varNextID x := by
        intro x hx
        rw [varNextID_eq x]
        omega
      obtain ⟨t1, et, ot⟩ := iht (varNextID id) (varNextID id) s.2.1 below
      obtain ⟨f1, ef, of⟩ := ihf (varNextID id) (varNextID id) s.2.2 below
      refine ⟨_, ?_, orderedFrom_Node_result (Or.inl (hm id s.1)) ot of⟩
      simp only [Next, ne_eq, h0, not_false_eq_true, if_true, et, ef]
      exact Node_eq _ (wellFormed_of_orderedFrom ot) (wellFormed_of_orderedFrom of)

theorem Prev_ordered (p : BDD) : ∀ lo m : Nat, separatedFrom lo p = true →
    inRange p = true →
    (∀ id, lo < id → m < 2 * (id / 2) ∨ (2 * (id / 2) = 0 ∧ m = 0)) →
    ∃ s, Prev p = some s ∧ orderedFrom m s = true := by
  induction p with
  | nil => intro lo m h; simp [separatedFrom] at h
  | mk v id t f iht ihf =>
    intro lo m h hg hm
    by_cases h0 : id = 0
    · subst h0
      exact ⟨mk v 0 t f, by simp [Prev], by simp [orderedFrom]⟩
    · have s := (separatedFrom_node h0).1 h
      have g := (inRange_node h0).1 hg
      have below : ∀ x, varNextID id < x →
          2 * (id / 2) < 2 * (x / 2) ∨ (2 * (x / 2) = 0 ∧ 2 * (id / 2) = 0) := by
        intro x hx
        rw [varNextID_eq id] at hx
        left; omega
      obtain ⟨t1, et, ot⟩ := iht (varNextID id) (2 * (id / 2)) s.2.1 g.2.1 below
      obtain ⟨f1, ef, of⟩ := ihf (varNextID id) (2 * (id / 2)) s.2.2 g.2.2 below
      refine ⟨_, ?_, orderedFrom_Node_result (hm id s.1) ot of⟩
      simp only [Prev, ne_eq, h0, not_false_eq_true, if_true, et, ef, varID_shift g.1]
      exact Node_eq _ (wellFormed_of_orderedFrom ot) (wellFormed_of_orderedFrom of)

end BDD

end ctl

/-- C13, as stated, fails: the diagram with node 2 above node 3 (the current-
and the next-state id of one variable) has strictly increasing ids, but
neither its `Next()` (ids 3 and 3) nor its `Prev()` (ids 2 and 2) has. -/
theorem tagging_breaks_order :
    (ctl.BDD.mk false 2 (ctl.BDD.mk false 3 ctl.True ctl.False) ctl.False).ordered = true ∧
    (ctl.BDD.mk false 2 (ctl.BDD.mk false 3 ctl.True ctl.False) ctl.False).Next
      = some (ctl.BDD.mk false 3 (ctl.BDD.mk false 3 ctl.True ctl.False) ctl.False) ∧
    (ctl.BDD.mk false 3 (ctl.BDD.mk false 3 ctl.True ctl.False) ctl.False).ordered = false ∧
    (ctl.BDD.mk false 2 (ctl.BDD.mk false 3 ctl.True ctl.False) ctl.False).Prev
      = some (ctl.BDD.mk false 2 (ctl.BDD.mk false 2 ctl.True ctl.False) ctl.False) ∧
    (ctl.BDD.mk false 2 (ctl.BDD.mk false 2 ctl.True ctl.False) ctl.False).ordered = false := by
  decide

/-- C13, amended: for every diagram `p` over `uint` ids whose ids strictly
increase along every root-to-leaf path and in which the ids below a node lie
above the next-state id of that node (no path holds both ids of one variable),
both `p.Next()` and `p.Prev()` return a diagram whose ids strictly increase
along every root-to-leaf path. -/
theorem tagging_keeps_order (p : ctl.BDD) (hs : p.separatedFrom 0 = true)
    (hg : p.inRange = true) :
    (∃ r, p.Next = some r ∧ r.ordered = true) ∧
    (∃ s, p.Prev = some s ∧ s.ordered = true) := by
  constructor
  · exact ctl.BDD.Next_ordered p 0 0 hs (fun id _ => by rw [ctl.varNextID_eq]; omega)
  · exact ctl.BDD.Prev_ordered p 0 0 hs hg (fun id _ => by omega)

theorem tagging_keeps_order_witness :
    (ctl.BDD.mk false 2 (ctl.BDD.mk false 5 ctl.True ctl.False) ctl.False).separatedFrom 0
      = true ∧
    (ctl.BDD.mk false 2 (ctl.BDD.mk false 5 ctl.True ctl.False) ctl.False).inRange = true ∧
    (∃ r, (ctl.BDD.mk false 2 (ctl.BDD.mk false 5 ctl.True ctl.False) ctl.False).Next
      = some r ∧ r.ordered = true) ∧
    (∃ s, (ctl.BDD.mk false 2 (ctl.BDD.mk false 5 ctl.True ctl.False) ctl.False).Prev
      = some s ∧ s.ordered = true) :=
  ⟨by decide, by decide, tagging_keeps_order _ (by decide) (by decide)⟩

/-- C14, as stated, fails at the reserved id 0: the `ID` of a leaf is 0, so
`Set(0, v)` takes the branch `p.ID == id` and returns the nil branch of the
leaf instead of the leaf. -/
theorem Set_zero_on_leaf :
    ctl.True.Set 0 true = some ctl.BDD.nil ∧ ctl.True.Set 0 true ≠ some ctl.True ∧
    ctl.False.Set 0 false = some ctl.BDD.nil ∧ ctl.False.Set 0 false ≠ some ctl.False := by
  decide

/-- C14, amended: for every leaf `p` (`True` or `False`), every variable id
`>= 1` and every value `v`, `p.Set(id, v)` returns `p` itself. -/
theorem Set_leaf_unchanged (p : ctl.BDD) (id : Nat) (v : Bool)
    (hp : p = ctl.True ∨ p = ctl.False) (hid : 1 ≤ id) : p.Set id v = some p := by
  have h0 : ¬ 0 = id := by omega
  rcases hp with hp | hp <;> subst hp <;> simp [ctl.True, ctl.False, ctl.BDD.Set, h0]

theorem Set_leaf_unchanged_witness :
    (ctl.False = ctl.True ∨ ctl.False = ctl.False) ∧ 1 ≤ 7 ∧
    ctl.False.Set 7 true = some ctl.False :=
  ⟨Or.inr rfl, by decide, Set_leaf_unchanged ctl.False 7 true (Or.inr rfl) (by decide)⟩

namespace ctl

/-! ## Apply with the operands exchanged -/

namespace BDD

theorem Apply_nil_left (op : Nat) (q : BDD) : Apply op nil q = none := by
  rw [Apply]

theorem Apply_nil_right (op : Nat) (p : BDD) : Apply op p nil = none := by
  cases p <;> rw [Apply]

/-- For a symmetric truth table, `Apply` does not depend on the order of its
operands. -/
theorem Apply_comm_aux (op : Nat) (hop : ∀ x y, opBit op x y = opBit op y x) :
    ∀ (n : Nat) (p q : BDD), size p + size q ≤ n → Apply op p q = Apply op q p := by
  intro n
  induction n with
  | zero =>
    intro p q hn
    cases p with
    | nil => rw [Apply_nil_left, Apply_nil_right]
    | mk pv pid pt pf => simp [size] at hn
  | succ n ih =>
    intro p q hn
    cases p with
    | nil => rw [Apply_nil_left, Apply_nil_right]
    | mk pv pid pt pf =>
    cases q with
    | nil => rw [Apply_nil_left, Apply_nil_right]
    | mk qv qid qt qf =>
    simp only [size] at hn
    by_cases hp0 : pid = 0
    · by_cases hq0 : qid = 0
      · subst hp0; subst hq0
        rw [Apply_leaf, Apply_leaf, hop]
      · rw [Apply_right op hq0 (Or.inr hp0), Apply_left op hq0 (Or.inr hp0),
          ih (mk pv pid pt pf) qt (by simp only [size]; omega),
          ih (mk pv pid pt pf) qf (by simp only [size]; omega)]
    · by_cases hlt : pid < qid ∨ qid = 0
      · rw [Apply_left op hp0 hlt, Apply_right op hp0 hlt,
          ih pt (mk qv qid qt qf) (by simp only [size]; omega),
          ih pf (mk qv qid qt qf) (by simp only [size]; omega)]
      · have hq0 : qid ≠ 0 := fun h => hlt (Or.inr h)
        by_cases heq : pid = qid
        · subst heq
          rw [Apply_same op hp0, Apply_same op hp0, ih pt qt (by omega), ih pf qf (by omega)]
        · have hgt : qid < pid := by
            have : ¬ pid < qid := fun h => hlt (Or.inl h)
            omega
          rw [Apply_right op hq0 (Or.inl hgt), Apply_left op hq0 (Or.inl hgt),
            ih (mk pv pid pt pf) qt (by simp only [size]; omega),
            ih (mk pv pid pt pf) qf (by simp only [size]; omega)]

theorem And_comm (p q : BDD) : p.And q = q.And p :=
  Apply_comm_aux 0b0001 (fun x y => by rw [opBit_and, opBit_and, Bool.and_comm])
    (size p + size q) p q le_rfl

end BDD

end ctl

/-- C15: `Intersects` agrees with `And` in either argument order.  For
well-formed `p` and `q`, `p.And(q)` and `q.And(p)` return diagrams that are
`Equals` (they are the same diagram), and `p.Intersects(q)`, although computed
from `q.And(p)`, returns true iff `p.And(q)` is not the `False` leaf. -/
theorem Intersects_And_either_order (p q : ctl.BDD) (hp : p.wellFormed = true)
    (hq : q.wellFormed = true) :
    ∃ r s b, p.And q = some r ∧ q.And p = some s ∧ r.Equals s = some true ∧
      p.Intersects q = some b ∧ (b = true ↔ r ≠ ctl.False) := by
  obtain ⟨r, e, _⟩ := ctl.BDD.Apply_spec 0b0001 p q hp hq
  have e1 : p.And q = some r := e
  have e2 : q.And p = some r := by rw [← ctl.BDD.And_comm]; exact e1
  refine ⟨r, r, decide (r ≠ ctl.False), e1, e2, ctl.BDD.Equals_self r, ?_, ?_⟩
  · simp only [ctl.BDD.Intersects, e2]
  · rw [decide_eq_true_iff]

theorem Intersects_And_either_order_witness :
    (ctl.BDD.mk false 1 ctl.True ctl.False).wellFormed = true ∧
    (ctl.BDD.mk false 2 ctl.False ctl.True).wellFormed = true ∧
    ∃ r s b, (ctl.BDD.mk false 1 ctl.True ctl.False).And
        (ctl.BDD.mk false 2 ctl.False ctl.True) = some r ∧
      (ctl.BDD.mk false 2 ctl.False ctl.True).And
        (ctl.BDD.mk false 1 ctl.True ctl.False) = some s ∧
      r.Equals s = some true ∧
      (ctl.BDD.mk false 1 ctl.True ctl.False).Intersects
        (ctl.BDD.mk false 2 ctl.False ctl.True) = some b ∧
      (b = true ↔ r ≠ ctl.False) :=
  ⟨by decide, by decide, Intersects_And_either_order _ _ (by decide) (by decide)⟩

namespace ctl

/-! ## Applying an operator to a diagram and itself or its negation -/

namespace BDD

theorem And_self_shape (p : BDD) : wellFormed p = true → reduced p = true →
    ∃ r, p.And p = some r ∧ wellFormed r = true ∧ shape r = shape p := by
  induction p with
  | nil => intro hw; simp [wellFormed] at hw
  | mk v id t f iht ihf =>
    intro hw hr
    by_cases h0 : id = 0
    · subst h0
      refine ⟨mk (opBit 0b0001 v v) 0 nil nil, Apply_leaf 0b0001 v v t f t f, rfl, ?_⟩
      rw [opBit_and]
      simp [shape]
    · have hw2 := (wellFormed_node h0).1 hw
      have hr2 := (reduced_node h0 hw2.1 hw2.2).1 hr
      obtain ⟨rt, et, wt, st⟩ := iht hw2.1 hr2.2.1
      obtain ⟨rf, ef, wf, sf⟩ := ihf hw2.2 hr2.2.2
      have hne : ¬ shape rt = shape rf := by rw [st, sf]; exact hr2.1
      refine ⟨mk false id rt rf, ?_, ?_, ?_⟩
      · unfold And at et ef ⊢
        rw [Apply_same 0b0001 h0, et, ef]
        simp only [Option.bind]
        rw [Node_eq id wt wf, if_neg hne]
      · rw [wellFormed_node h0]; exact ⟨wt, wf⟩
      · simp [shape, h0, st, sf]

theorem Xor_self (p : BDD) : wellFormed p = true → p.Xor p = some ctl.False := by
  induction p with
  | nil => intro hw; simp [wellFormed] at hw
  | mk v id t f iht ihf =>
    intro hw
    by_cases h0 : id = 0
    · subst h0
      unfold Xor
      rw [Apply_leaf, opBit_xor]
      simp [ctl.False]
    · have hw2 := (wellFormed_node h0).1 hw
      have et := iht hw2.1
      have ef := ihf hw2.2
      unfold Xor at et ef ⊢
      rw [Apply_same 0b0110 h0, et, ef]
      simp only [Option.bind]
      simp [ctl.Node, Equals_self]

/-- An ordered reduced result that is true everywhere is the `True` leaf. -/
theorem result_eq_True {r : BDD} (sr : isResult r) (o : ordered r = true)
    (rd : reduced r = true) (h : ∀ a, eval r a = true) : r = ctl.True := by
  apply eq_True_of_shape sr
  exact @canonical r ctl.True o (by decide) rd (by decide) (fun a => by rw [h a]; rfl)

/-- An ordered reduced result that is false everywhere is the `False` leaf. -/
theorem result_eq_False {r : BDD} (sr : isResult r) (o : ordered r = true)
    (rd : reduced r = true) (h : ∀ a, eval r a = false) : r = ctl.False := by
  apply eq_False_of_shape sr
  exact @canonical r ctl.False o (by decide) rd (by decide) (fun a => by rw [h a]; rfl)

end BDD

end ctl

/-- C16: self-application laws.  For every reduced well-formed diagram `p`,
`p.And(p)` returns a diagram that `Equals` `p`, and `p.Xor(p)` returns the
`False` leaf. -/
theorem self_application (p : ctl.BDD) (hw : p.wellFormed = true) (hr : p.reduced = true) :
    (∃ r, p.And p = some r ∧ r.Equals p = some true) ∧ p.Xor p = some ctl.False := by
  obtain ⟨r, e, wr, sr⟩ := ctl.BDD.And_self_shape p hw hr
  refine ⟨⟨r, e, ?_⟩, ctl.BDD.Xor_self p hw⟩
  rw [ctl.BDD.Equals_eq_shape r p wr hw, sr]
  simp

theorem self_application_witness :
    (ctl.BDD.mk false 1 ctl.True ctl.False).wellFormed = true ∧
    (ctl.BDD.mk false 1 ctl.True ctl.False).reduced = true ∧
    (∃ r, (ctl.BDD.mk false 1 ctl.True ctl.False).And (ctl.BDD.mk false 1 ctl.True ctl.False)
      = some r ∧ r.Equals (ctl.BDD.mk false 1 ctl.True ctl.False) = some true) ∧
    (ctl.BDD.mk false 1 ctl.True ctl.False).Xor (ctl.BDD.mk false 1 ctl.True ctl.False)
      = some ctl.False :=
  ⟨by decide, by decide, self_application _ (by decide) (by decide)⟩

/-- C17: complement laws.  For every reduced diagram `p` with strictly
increasing ids, `p.Neg()` returns a diagram `q` for which `p.Or(q)` is the
`True` leaf, `p.And(q)` is the `False` leaf, `p.Xor(q)` is the `True` leaf and
`p.Eq(q)` is the `False` leaf; and for every id `>= 1`,
`Node(id, True, False).Neg()` `Equals` `Node(id, False, True)`. -/
theorem complement_laws (p : ctl.BDD) (ho : p.ordered = true) (_hr : p.reduced = true) :
    (∃ q, p.Neg = some q ∧ p.Or q = some ctl.True ∧ p.And q = some ctl.False ∧
      p.Xor q = some ctl.True ∧ p.Eq q = some ctl.False) ∧
    (∀ id, 1 ≤ id → ∃ x nx y, ctl.Node id ctl.True ctl.False = some x ∧ x.Neg = some nx ∧
      ctl.Node id ctl.False ctl.True = some y ∧ nx.Equals y = some true) := by
  have hw := ctl.BDD.wellFormed_of_orderedFrom ho
  constructor
  · obtain ⟨q, eq, wq, _, _, evq, oq⟩ := ctl.BDD.Apply_spec 0b1101 p ctl.False hw (by decide)
    have hoq : q.ordered = true := oq 0 ho (by decide)
    have hq : ∀ a, q.eval a = !p.eval a := by
      intro a
      rw [evq, ctl.opBit_imply]
      simp [ctl.False, ctl.BDD.eval]
    refine ⟨q, eq, ?_, ?_, ?_, ?_⟩
    · obtain ⟨r, e, _, rd, sr, ev, o⟩ := ctl.BDD.Apply_spec 0b0111 p q hw wq
      have : r = ctl.True := ctl.BDD.result_eq_True sr (o 0 ho hoq) rd
        (fun a => by rw [ev, ctl.opBit_or, hq]; cases p.eval a <;> rfl)
      rw [← this]; exact e
    · obtain ⟨r, e, _, rd, sr, ev, o⟩ := ctl.BDD.Apply_spec 0b0001 p q hw wq
      have : r = ctl.False := ctl.BDD.result_eq_False sr (o 0 ho hoq) rd
        (fun a => by rw [ev, ctl.opBit_and, hq]; cases p.eval a <;> rfl)
      rw [← this]; exact e
    · obtain ⟨r, e, _, rd, sr, ev, o⟩ := ctl.BDD.Apply_spec 0b0110 p q hw wq
      have : r = ctl.True := ctl.BDD.result_eq_True sr (o 0 ho hoq) rd
        (fun a => by rw [ev, ctl.opBit_xor, hq]; cases p.eval a <;> rfl)
      rw [← this]; exact e
    · obtain ⟨r, e, _, rd, sr, ev, o⟩ := ctl.BDD.Apply_spec 0b1001 p q hw wq
      have : r = ctl.False := ctl.BDD.result_eq_False sr (o 0 ho hoq) rd
        (fun a => by rw [ev, ctl.opBit_eq, hq]; cases p.eval a <;> rfl)
      rw [← this]; exact e
  · intro id hid
    have h0 : id ≠ 0 := by omega
    refine ⟨ctl.BDD.mk false id ctl.True ctl.False, ctl.BDD.mk false id ctl.False ctl.True,
      ctl.BDD.mk false id ctl.False ctl.True, ?_, ?_, ?_, ctl.BDD.Equals_self _⟩
    · rw [ctl.Node_eq id (by decide) (by decide)]
      simp [ctl.True, ctl.False, ctl.BDD.shape]
    · unfold ctl.BDD.Neg ctl.BDD.Imply
      have hF : ctl.False = ctl.BDD.mk false 0 ctl.BDD.nil ctl.BDD.nil := rfl
      have hT : ctl.True = ctl.BDD.mk true 0 ctl.BDD.nil ctl.BDD.nil := rfl
      have e1 : ctl.BDD.Apply 0b1101 ctl.True ctl.False = some ctl.False := by
        rw [hT, hF, ctl.BDD.Apply_leaf, ctl.opBit_imply]; rfl
      have e2 : ctl.BDD.Apply 0b1101 ctl.False ctl.False = some ctl.True := by
        rw [hF, ctl.BDD.Apply_leaf, ctl.opBit_imply]; rfl
      conv => lhs; rw [hF]
      rw [ctl.BDD.Apply_left 0b1101 h0 (Or.inr rfl), ← hF, e1, e2]
      simp only [Option.bind]
      rw [ctl.Node_eq id (by decide) (by decide)]
      simp [ctl.True, ctl.False, ctl.BDD.shape]
    · rw [ctl.Node_eq id (by decide) (by decide)]
      simp [ctl.True, ctl.False, ctl.BDD.shape]

theorem complement_laws_witness :
    (ctl.BDD.mk false 2 ctl.True ctl.False).ordered = true ∧
    (ctl.BDD.mk false 2 ctl.True ctl.False).reduced = true ∧
    (∃ q, (ctl.BDD.mk false 2 ctl.True ctl.False).Neg = some q ∧
      (ctl.BDD.mk false 2 ctl.True ctl.False).Or q = some ctl.True ∧
      (ctl.BDD.mk false 2 ctl.True ctl.False).And q = some ctl.False ∧
      (ctl.BDD.mk false 2 ctl.True ctl.False).Xor q = some ctl.True ∧
      (ctl.BDD.mk false 2 ctl.True ctl.False).Eq q = some ctl.False) ∧
    (∀ id, 1 ≤ id → ∃ x nx y, ctl.Node id ctl.True ctl.False = some x ∧ x.Neg = some nx ∧
      ctl.Node id ctl.False ctl.True = some y ∧ nx.Equals y = some true) :=
  ⟨by decide, by decide, complement_laws _ (by decide) (by decide)⟩

namespace ctl

/-! ## Reduce -/

namespace BDD

theorem Reduce_spec (p : BDD) : wellFormed p = true →
    ∃ r, Reduce p = some r ∧ wellFormed r = true ∧ reduced r = true ∧
      ∀ a, eval r a = eval p a := by
  induction p with
  | nil => intro hw; simp [wellFormed] at hw
  | mk v id t f iht ihf =>
    intro hw
    by_cases h0 : id = 0
    · subst h0
      exact ⟨mk v 0 t f, by simp [Reduce], hw, by simp [reduced], fun _ => rfl⟩
    · have hw2 := (wellFormed_node h0).1 hw
      obtain ⟨t1, et, wt, rt, evt⟩ := iht hw2.1
      obtain ⟨f1, ef, wf, rf, evf⟩ := ihf hw2.2
      by_cases hs : shape t1 = shape f1
      · refine ⟨t1, ?_, wt, rt, ?_⟩
        · simp only [Reduce, ne_eq, h0, not_false_eq_true, if_true, et, ef,
            Equals_eq_shape t1 f1 wt wf, hs, decide_True]
        · intro a
          have h1 : eval t1 a = eval f1 a := eval_eq_of_shape hs a
          simp only [eval, ne_eq, h0, not_false_eq_true, if_true, ← evt, ← evf, ← h1]
          split <;> rfl
      · refine ⟨mk v id t1 f1, ?_, ?_, ?_, ?_⟩
        · simp only [Reduce, ne_eq, h0, not_false_eq_true, if_true, et, ef,
            Equals_eq_shape t1 f1 wt wf, hs, decide_False]
        · rw [wellFormed_node h0]; exact ⟨wt, wf⟩
        · rw [reduced_node h0 wt wf]; exact ⟨hs, rt, rf⟩
        · intro a
          simp only [eval, ne_eq, h0, not_false_eq_true, if_true, evt, evf]

theorem Reduce_fix (p : BDD) : wellFormed p = true → reduced p = true →
    Reduce p = some p := by
  induction p with
  | nil => intro hw; simp [wellFormed] at hw
  | mk v id t f iht ihf =>
    intro hw hr
    by_cases h0 : id = 0
    · subst h0
      simp [Reduce]
    · have hw2 := (wellFormed_node h0).1 hw
      have hr2 := (reduced_node h0 hw2.1 hw2.2).1 hr
      simp only [Reduce, ne_eq, h0, not_false_eq_true, if_true, iht hw2.1 hr2.2.1,
        ihf hw2.2 hr2.2.2, Equals_eq_shape t f hw2.1 hw2.2, hr2.1, decide_False]

end BDD

end ctl

/-- C18: `Reduce` normalises to reduced form and fixes reduced diagrams.  For
every well-formed diagram `p`, `p.Reduce()` returns a diagram that has no node
whose `True` branch `Equals` its `False` branch and that evaluates like `p`
under every assignment; applying `Reduce` to the result returns the result
again; and if `p` is already reduced, `p.Reduce()` `Equals` `p`. -/
theorem Reduce_normalises (p : ctl.BDD) (hw : p.wellFormed = true) :
    ∃ r, p.Reduce = some r ∧ r.reduced = true ∧ (∀ a, r.eval a = p.eval a) ∧
      r.Reduce = some r ∧ (p.reduced = true → r.Equals p = some true) := by
  obtain ⟨r, e, wr, rd, ev⟩ := ctl.BDD.Reduce_spec p hw
  refine ⟨r, e, rd, ev, ctl.BDD.Reduce_fix r wr rd, ?_⟩
  intro hp
  rw [ctl.BDD.Reduce_fix p hw hp] at e
  cases e
  exact ctl.BDD.Equals_self p

theorem Reduce_normalises_witness :
    (ctl.BDD.mk false 1 (ctl.BDD.mk false 2 ctl.True ctl.True)
      (ctl.BDD.mk false 2 ctl.True ctl.False)).wellFormed = true ∧
    ∃ r, (ctl.BDD.mk false 1 (ctl.BDD.mk false 2 ctl.True ctl.True)
        (ctl.BDD.mk false 2 ctl.True ctl.False)).Reduce = some r ∧
      r.reduced = true ∧
      (∀ a, r.eval a = (ctl.BDD.mk false 1 (ctl.BDD.mk false 2 ctl.True ctl.True)
        (ctl.BDD.mk false 2 ctl.True ctl.False)).eval a) ∧
      r.Reduce = some r ∧
      ((ctl.BDD.mk false 1 (ctl.BDD.mk false 2 ctl.True ctl.True)
        (ctl.BDD.mk false 2 ctl.True ctl.False)).reduced = true →
        r.Equals (ctl.BDD.mk false 1 (ctl.BDD.mk false 2 ctl.True ctl.True)
          (ctl.BDD.mk false 2 ctl.True ctl.False)) = some true) :=
  ⟨by decide, Reduce_normalises _ (by decide)⟩

namespace ctl

namespace Heap

/-! ## Memory -/

theorem wellFormed_some {n : Nat} {h : List Cell} {i : Nat} {c : Cell}
    (hr : readCell h i = some c) :
    wellFormed (n + 1) h (some i) =
      (c.ID == 0 || (wellFormed n h c.True && wellFormed n h c.False)) := by
  simp [wellFormed, hr]

theorem wellFormed_mono (h : List Cell) : ∀ (n : Nat) (p : Option Nat),
    wellFormed n h p = true → wellFormed (n + 1) h p = true := by
  intro n
  induction n with
  | zero => intro p hp; simp [wellFormed] at hp
  | succ n ih =>
    intro p hp
    cases p with
    | none => simp [wellFormed] at hp
    | some i =>
      cases hr : readCell h i with
      | none => simp [wellFormed, hr] at hp
      | some c =>
        rw [wellFormed_some hr] at hp ⊢
        simp only [Bool.or_eq_true, Bool.and_eq_true] at hp ⊢
        rcases hp with h0 | ⟨h1, h2⟩
        · exact Or.inl h0
        · exact Or.inr ⟨ih _ h1, ih _ h2⟩

theorem wellFormed_fuel_le {n fuel : Nat} (hle : n ≤ fuel) {h : List Cell} {p : Option Nat}
    (hw : wellFormed n h p = true) : wellFormed fuel h p = true := by
  induction hle with
  | refl => exact hw
  | step _ ih => exact wellFormed_mono h _ p ih

end Heap

end ctl

namespace ctl

/-! ## Structs with the reserved id 0 -/

namespace BDD

/-- As its first operand, `Apply` reads only the `Value` of a struct with
`ID` 0. -/
theorem Apply_leaf_left (op : Nat) (v : Bool) (t f : BDD) (q : BDD) :
    Apply op (mk v 0 t f) q = Apply op (mk v 0 nil nil) q := by
  induction q with
  | nil => rw [Apply_nil_right, Apply_nil_right]
  | mk qv qid qt qf iht ihf =>
    by_cases hq0 : qid = 0
    · subst hq0
      rw [Apply_leaf, Apply_leaf]
    · rw [Apply_right op hq0 (Or.inr rfl), Apply_right op hq0 (Or.inr rfl), iht, ihf]

/-- As its second operand, `Apply` reads only the `Value` of a struct with
`ID` 0. -/
theorem Apply_leaf_right (op : Nat) (v : Bool) (t f : BDD) (p : BDD) :
    Apply op p (mk v 0 t f) = Apply op p (mk v 0 nil nil) := by
  induction p with
  | nil => rw [Apply_nil_left, Apply_nil_left]
  | mk pv pid pt pf iht ihf =>
    by_cases hp0 : pid = 0
    · subst hp0
      rw [Apply_leaf, Apply_leaf]
    · rw [Apply_left op hp0 (Or.inr rfl), Apply_left op hp0 (Or.inr rfl), iht, ihf]

end BDD

end ctl

/-- C20: the reserved id 0 silently collapses to the `False` leaf.  For all
diagrams `t` and `f` for which `t.Equals(f)` is false, `Node(0, t, f)` returns
a value for which `Node()` is false, which `Equals` the `False` leaf and does
not `Equals` the `True` leaf, which evaluates to false under every assignment,
and which `Apply` treats, as either operand, like the `False` leaf. -/
theorem Node_zero_collapses (t f : ctl.BDD) (h : t.Equals f = some false) :
    ∃ r, ctl.Node 0 t f = some r ∧ r.Node = some false ∧
      r.Equals ctl.False = some true ∧ r.Equals ctl.True = some false ∧
      (∀ a, r.eval a = false) ∧
      (∀ op q, r.Apply op q = ctl.False.Apply op q ∧ q.Apply op r = q.Apply op ctl.False) := by
  refine ⟨ctl.BDD.mk false 0 t f, ?_, ?_, ?_, ?_, ?_, ?_⟩
  · simp [ctl.Node, h, ctl.registerNodeRef]
  · simp [ctl.BDD.Node]
  · unfold ctl.BDD.Equals ctl.False
    split <;> simp
  · unfold ctl.BDD.Equals ctl.True
    simp
  · intro a
    simp [ctl.BDD.eval]
  · intro op q
    exact ⟨ctl.BDD.Apply_leaf_left op false t f q, ctl.BDD.Apply_leaf_right op false t f q⟩

theorem Node_zero_collapses_witness :
    ctl.True.Equals (ctl.BDD.mk false 5 ctl.True ctl.False) = some false ∧
    ∃ r, ctl.Node 0 ctl.True (ctl.BDD.mk false 5 ctl.True ctl.False) = some r ∧
      r.Node = some false ∧
      r.Equals ctl.False = some true ∧ r.Equals ctl.True = some false ∧
      (∀ a, r.eval a = false) ∧
      (∀ op q, r.Apply op q = ctl.False.Apply op q ∧ q.Apply op r = q.Apply op ctl.False) :=
  ⟨by decide, Node_zero_collapses _ _ (by decide)⟩
